import Mathlib

/-!
Verification development for the FoundationDB commit-pipeline core
(commit proxy batcher, split-transaction planner, TLog server, persistent
queue framing, merged peek cursor).

Every definition below is a shallow embedding of a function or data
structure of the C++ sources (file and line references are given in the
doc comments).  Machine integers are modelled as `Nat`; versions
(`Version`, an `int64_t` that is non-negative on all paths relevant
here) are modelled as `Nat`.  A handful of structures whose defining
header is not part of the source snapshot (only their uses are) are
modelled from the specification and are marked as such.
-/

namespace FDBModel

/-! ## TimedKVCache (src/fdbserver/TimedKVCache.h)

The C++ `TimedKVCache` holds `kvMapper : unordered_map<K, V>` plus a list
of timestamped keys used by `sweep()` to drop entries older than
`CACHE_EXPIRING_TIME`.  All claims below only concern calls made inside
the expiry window, where `sweep()` removes nothing, so the model keeps
only the map (as an association list) and `sweep` is the identity. -/

structure TimedKVCache (K : Type) (V : Type) where
  kvMapper : List (K × V)

namespace TimedKVCache

variable {K V : Type} [DecidableEq K]

/-- Lookup in the underlying map (`kvMapper.find` / `kvMapper.at`). -/
def lookup (c : TimedKVCache K V) (k : K) : Option V :=
  (c.kvMapper.find? (fun p => p.1 = k)).map Prod.snd

/-- Source `add(const key_t&, const value_t&)` (TimedKVCache.h:60-64):
`kvMapper[key] = value` assigns, overwriting an existing mapping. -/
def addAssign (c : TimedKVCache K V) (k : K) (v : V) : TimedKVCache K V :=
  if (c.lookup k).isSome then
    ⟨c.kvMapper.map (fun p => if p.1 = k then (k, v) else p)⟩
  else
    ⟨c.kvMapper ++ [(k, v)]⟩

/-- Source `add(const key_t&, value_t&&)` (TimedKVCache.h:71-75):
`kvMapper.emplace(key, move(value))` inserts only when the key is absent
(an `emplace` on a present key is a no-op on the map). -/
def addEmplace (c : TimedKVCache K V) (k : K) (v : V) : TimedKVCache K V :=
  if (c.lookup k).isSome then c else ⟨c.kvMapper ++ [(k, v)]⟩

/-- Source `exists` (TimedKVCache.h:82-85).  After `sweep()` the C++ code
returns `kvMapper.find(key) == kvMapper.end()`, which is `true` exactly
when the key is ABSENT.  This is the inverse of what the function's own
doc comment (`Check if a given key exists`) describes; we embed the code
as written. -/
def existsKey (c : TimedKVCache K V) (k : K) : Bool :=
  (c.lookup k).isNone

/-- Source `get` (TimedKVCache.h:92-102).  As written, the non-const
overload calls itself through a no-op `const_cast` and never terminates,
and the const overload reaches `kvMapper.at(key)`, which throws
`std::out_of_range` when the key is absent.  We model the most charitable
reading: the mapped value when the key is present, and a failure
(`none`) when it is absent. -/
def get (c : TimedKVCache K V) (k : K) : Option V :=
  c.lookup k

end TimedKVCache

/-! ## PartMerger (src/fdbserver/PartMerger.h)

`PartMerger<K, V>` stores, per key, a pair of a `vector<bool>` (which
part indices have arrived) and the merged value, inside a
`TimedKVCache`.  `merge` is the virtual hook implemented by
`TLogCommitRequestMerger`.  Failures of `TimedKVCache::get` (a `get` on
an absent key) are surfaced as `Except.error`. -/

inductive MergerFailure : Type
  /-- `TimedKVCache::get` reached for a key absent from `kvMapper`:
  in the C++ this is unbounded recursion / `std::out_of_range`. -/
  | getOnMissingKey : MergerFailure
deriving DecidableEq

namespace PartMerger

variable {K V : Type} [DecidableEq K]

/-- State of a `PartMerger<K, V>`: the `parts` cache of PartMerger.h:81. -/
def State (K V : Type) : Type := TimedKVCache K (List Bool × V)

/-- Source `isComplete` (PartMerger.h:60-63): `all_of` over the part
list obtained through `parts.get(k)`. -/
def isComplete (st : State K V) (k : K) : Except MergerFailure Bool :=
  match TimedKVCache.get st k with
  | none => .error .getOnMissingKey
  | some (partList, _) => .ok (partList.all id)

/-- Source `insert` (PartMerger.h:43-58), embedded as written.  Because
`TimedKVCache::exists` returns `true` exactly when the key is ABSENT,
the branch `if (!parts.exists(k))` that was evidently intended for a
fresh key is taken when the key is already PRESENT, and the
`else` branch (the merge path) is taken for a fresh key, where
`parts.get(k)` fails.  `mergeF` is the virtual `merge`. -/
def insert (mergeF : V → V → V) (st : State K V) (k : K)
    (partIndex totalParts : ℕ) (v : V) :
    Except MergerFailure (Bool × State K V) :=
  if ¬ (TimedKVCache.existsKey st k) then
    -- `parts.add(k, make_pair(vector<bool>(totalParts, false), v))`:
    -- the argument is an rvalue, so the `emplace` overload of `add` runs.
    let st₁ : State K V := TimedKVCache.addEmplace st k (List.replicate totalParts false, v)
    -- `parts.get(k).first[partIndex] = true`
    match TimedKVCache.get st₁ k with
    | none => .error .getOnMissingKey
    | some (partList, v₀) =>
      let st₂ : State K V := TimedKVCache.addAssign st₁ k (partList.set partIndex true, v₀)
      (isComplete st₂ k).map (fun b => (b, st₂))
  else
    match TimedKVCache.get st k with
    | none => .error .getOnMissingKey
    | some (partList, v₀) =>
      let st₂ : State K V :=
        if partList.get? partIndex = some false then
          TimedKVCache.addAssign st k (partList.set partIndex true, mergeF v₀ v)
        else st
      (isComplete st₂ k).map (fun b => (b, st₂))

/-- The empty merger state (a freshly constructed `PartMerger`). -/
def emptyState (K V : Type) : State K V := ⟨[]⟩

end PartMerger

/-- Modelled from the spec: the intended behaviour of
`PartMerger::insert` described in §4.6 of the specification ("Return
`true` from the merger iff all `total_parts` parts have arrived"), i.e.
the code of PartMerger.h:43-58 with `TimedKVCache::exists` returning
presence instead of absence.  Used only to contrast the claim with the
code as written. -/
def PartMerger.insertIntended {K V : Type} [DecidableEq K]
    (mergeF : V → V → V) (st : PartMerger.State K V) (k : K)
    (partIndex totalParts : ℕ) (v : V) :
    Except MergerFailure (Bool × PartMerger.State K V) :=
  match TimedKVCache.get st k with
  | none =>
    let st₁ := TimedKVCache.addEmplace st k ((List.replicate totalParts false).set partIndex true, v)
    (PartMerger.isComplete st₁ k).map (fun b => (b, st₁))
  | some (partList, v₀) =>
    let st₂ :=
      if partList.get? partIndex = some false then
        TimedKVCache.addAssign st k (partList.set partIndex true, mergeF v₀ v)
      else st
    (PartMerger.isComplete st₂ k).map (fun b => (b, st₂))

/-- C1: evaluation of the code at the failing input.  The claim says the
first `insert` of a fresh split id records the part and returns `false`.
Because `TimedKVCache::exists` (TimedKVCache.h:82-85) answers `true`
exactly when the key is ABSENT, a fresh key is routed into the merge
branch of `PartMerger::insert` (PartMerger.h:47-55), where
`parts.get(k)` runs on a key that is not in the cache and fails
(`std::out_of_range` under `kvMapper.at`, or unbounded recursion in
`TimedKVCache::get` as literally written) instead of returning `false`.
The second conjunct shows that the insert logic with the intended
`exists` (presence instead of absence) does return `false` here. -/
theorem c1_first_insert_crashes :
    PartMerger.insert (fun a _ => a) (PartMerger.emptyState ℕ ℕ) 0 0 2 0 =
      .error .getOnMissingKey ∧
    (PartMerger.insertIntended (fun a _ => a) (PartMerger.emptyState ℕ ℕ) 0 0 2 0).map
        Prod.fst = .ok false :=
  ⟨rfl, rfl⟩

/-! ## Split planner (src/fdbclient/MasterProxyInterface.cpp)

The planner decides whether a `CommitTransactionRequest` is split
(`shouldSplitCommitTransactionRequest`, lines 44-67), produces the part
skeletons (`prepareSplitTransactions`, lines 75-131) and distributes the
mutations over the parts by the LPT heuristic (`distributeMutations`,
lines 150-198).  Only a mutation's value size (`param2.size()`) is
inspected by the planner, so a mutation is modelled by its value size. -/

/-- A mutation, reduced to the only datum the planner reads: the size of
its value `param2`. -/
structure Mutation where
  param2Size : ℕ
deriving DecidableEq

/-- Modelled from the spec (§3): `SplitTransaction { id, total_parts,
part_index }`; the defining header (fdbclient/MasterProxyInterface.h) is
not part of the source snapshot, but its constructor call
`SplitTransaction(splitID, numProxies, i)` appears at
MasterProxyInterface.cpp:87. -/
structure SplitTransactionM where
  id : ℕ
  totalParts : ℕ
  partIndex : ℕ
deriving DecidableEq

/-- Modelled from the spec (§3) and the uses in
MasterProxyInterface.cpp: the fields of `CommitTransactionRequest` the
claims touch — the mutation list, the `FLAG_FIRST_IN_BATCH` bit of
`flags` (read by `firstInBatch()`), and the optional `SplitTransaction`
marker.  Conflict ranges, `read_snapshot` and the reply channel play no
role in any claim and are omitted. -/
structure CommitTransactionRequestM where
  mutations : List Mutation
  flagFirstInBatch : Bool
  splitTransaction : Option SplitTransactionM
deriving DecidableEq

/-- Client knobs read by the planner. -/
structure ClientKnobs where
  /-- `TRANSACTION_SPLIT_MODE`; bit 0 (`SPLIT_TRANSACTION_MASK`)
  enables splitting, bits 1-2 (`CONFLICTS_MASK`) pick the conflict
  distribution mode. -/
  transactionSplitMode : ℕ
  /-- `LARGE_TRANSACTION_CRITERIA`. -/
  largeTransactionCriteria : ℕ

/-- Total value size of a request:
`accumulate(..., [](int total, const MutationRef& ref) { return total +
ref.param2.size(); })` of MasterProxyInterface.cpp:58-60. -/
def totalValueSize (req : CommitTransactionRequestM) : ℕ :=
  (req.mutations.map Mutation.param2Size).sum

/-- Source `shouldSplitCommitTransactionRequest`
(MasterProxyInterface.cpp:44-67).  `(mode & SPLIT_TRANSACTION_MASK) ==
DISABLE_SPLIT_TRANSACTION` is `mode % 2 = 0` since the mask is `0b1`. -/
def shouldSplitCommitTransactionRequest (knobs : ClientKnobs)
    (req : CommitTransactionRequestM) (numProxies : ℕ) : Bool :=
  if numProxies < 2 ∨ req.mutations.length < 2 ∨
      knobs.transactionSplitMode % 2 = 0 then
    false
  else
    knobs.largeTransactionCriteria ≤ totalValueSize req

/-- Source `prepareSplitTransactions` (MasterProxyInterface.cpp:75-131):
`numProxies` skeletons, each with cleared mutations, the shared
`splitID`, `total_parts = numProxies`, `part_index = i`, and
`FLAG_FIRST_IN_BATCH` OR-ed into the flags.  The conflict-range
distribution of lines 97-128 manipulates fields no claim depends on and
is not embedded. -/
def prepareSplitTransactions (splitID : ℕ) (numProxies : ℕ) :
    List CommitTransactionRequestM :=
  (List.range numProxies).map fun i =>
    { mutations := []
      flagFirstInBatch := true
      splitTransaction := some ⟨splitID, numProxies, i⟩ }

/-- Source `MutationValueSizeIndex` (MasterProxyInterface.cpp:134-139):
max-heap entry, ordered by `valueSize` only. -/
structure MutationValueSizeIndex where
  valueSize : ℕ
  index : ℕ
deriving DecidableEq

/-- Source `MutationTotalValueSizeIndex`
(MasterProxyInterface.cpp:141-148): min-heap entry, ordered by
`totalValueSize` only. -/
structure MutationTotalValueSizeIndex where
  totalValueSize : ℕ
  index : ℕ
deriving DecidableEq

/-- Insertion into a list kept in descending `valueSize` order; the
sorted list models the pop order of the `std::priority_queue`
max-heap of `MutationValueSizeIndex` (largest `valueSize` first; the
order of entries with equal `valueSize` is unspecified in C++, and this
model resolves such ties by insertion position). -/
def insertDescByValueSize (m : MutationValueSizeIndex) :
    List MutationValueSizeIndex → List MutationValueSizeIndex
  | [] => [m]
  | x :: xs =>
    if x.valueSize < m.valueSize then m :: x :: xs
    else x :: insertDescByValueSize m xs

/-- The sequence in which the mutation max-heap of
`distributeMutations` pops its entries. -/
def mutationPopOrder (mutations : List Mutation) :
    List MutationValueSizeIndex :=
  (List.range mutations.length).foldl
    (fun acc i =>
      insertDescByValueSize
        ⟨((mutations.get? i).map Mutation.param2Size).getD 0, i⟩ acc)
    []

/-- Extraction of the top of the parts min-heap: an entry of minimal
`totalValueSize` (the first such entry in list order; C++ leaves the
order of equal keys unspecified) together with the remaining heap. -/
def extractMinLoad :
    List MutationTotalValueSizeIndex →
    Option (MutationTotalValueSizeIndex × List MutationTotalValueSizeIndex)
  | [] => none
  | x :: xs =>
    match extractMinLoad xs with
    | none => some (x, [])
    | some (m, rest) =>
      if x.totalValueSize ≤ m.totalValueSize then some (x, xs)
      else some (m, x :: rest)

/-- One round of the `while (!valueSizeIndex.empty())` loop of
`distributeMutations` (MasterProxyInterface.cpp:178-197), iterated over
the whole pop order: pop the largest remaining mutation, pop the
least-loaded part, copy the mutation into that part, push the part back
with its load increased. -/
def distributeMutationsGo (mutations : List Mutation) :
    List MutationValueSizeIndex → List MutationTotalValueSizeIndex →
    List CommitTransactionRequestM → List CommitTransactionRequestM
  | [], _, parts => parts
  | item :: rest, heap, parts =>
    match extractMinLoad heap with
    | none => parts
    | some (selectedTxn, heap') =>
      let parts' :=
        parts.mapIdx (fun j p =>
          if j = selectedTxn.index then
            { p with mutations :=
                p.mutations ++ ((mutations.get? item.index).map (fun m => [m])).getD [] }
          else p)
      distributeMutationsGo mutations rest
        (⟨selectedTxn.totalValueSize + item.valueSize, selectedTxn.index⟩ :: heap')
        parts'

/-- Source `distributeMutations` (MasterProxyInterface.cpp:150-198). -/
def distributeMutations (req : CommitTransactionRequestM)
    (splitCommitTxnRequests : List CommitTransactionRequestM) :
    List CommitTransactionRequestM :=
  distributeMutationsGo req.mutations
    (mutationPopOrder req.mutations)
    ((List.range splitCommitTxnRequests.length).map fun i => ⟨0, i⟩)
    splitCommitTxnRequests

/-- Source `splitCommitTransactionRequest`
(MasterProxyInterface.cpp:203-211). -/
def splitCommitTransactionRequest (splitID : ℕ)
    (req : CommitTransactionRequestM) (numProxies : ℕ) :
    List CommitTransactionRequestM :=
  distributeMutations req (prepareSplitTransactions splitID numProxies)

/-- Accumulated value-size load of each produced part. -/
def partLoads (parts : List CommitTransactionRequestM) : List ℕ :=
  parts.map totalValueSize

/-- The mutation distribution never touches the `splitTransaction` (or
flag) fields: `distributeMutationsGo` only appends to `mutations`. -/
theorem distributeMutationsGo_map_splitTransaction
    (ms : List Mutation) (pop : List MutationValueSizeIndex) :
    ∀ (heap : List MutationTotalValueSizeIndex)
      (parts : List CommitTransactionRequestM),
      (distributeMutationsGo ms pop heap parts).map
          CommitTransactionRequestM.splitTransaction =
        parts.map CommitTransactionRequestM.splitTransaction := by
  induction pop with
  | nil => intro heap parts; rfl
  | cons item rest ih =>
    intro heap parts
    unfold distributeMutationsGo
    cases h : extractMinLoad heap with
    | none => rfl
    | some sel =>
      simp only [ih]
      rw [List.mapIdx_eq_enum_map, List.map_map]
      have hcong : ∀ p ∈ parts.enum,
          (CommitTransactionRequestM.splitTransaction ∘
            Function.uncurry fun j q =>
              if j = sel.1.index then
                { q with mutations :=
                    q.mutations ++ ((ms.get? item.index).map (fun m => [m])).getD [] }
              else q) p =
            (CommitTransactionRequestM.splitTransaction ∘ Prod.snd) p := by
        intro p _
        by_cases hji : p.1 = sel.1.index <;>
          simp [Function.uncurry, hji]
      rw [List.map_congr_left hcong, ← List.map_map, List.enum_map_snd]

/-- C6: `shouldSplitCommitTransactionRequest(req, n)` returns `true` iff
`n ≥ 2`, the request has at least 2 mutations, bit 0 of
`TRANSACTION_SPLIT_MODE` enables splitting, and the total value size
reaches `LARGE_TRANSACTION_CRITERIA`; and whenever it returns `true`,
every part produced by `splitCommitTransactionRequest` carries
`total_parts = n ≥ 2`, so a split with `total_parts = 1` is never
produced. -/
theorem c6_shouldSplit_characterization (knobs : ClientKnobs)
    (req : CommitTransactionRequestM) (n sid : ℕ) :
    (shouldSplitCommitTransactionRequest knobs req n = true ↔
      2 ≤ n ∧ 2 ≤ req.mutations.length ∧
        knobs.transactionSplitMode % 2 = 1 ∧
        knobs.largeTransactionCriteria ≤ totalValueSize req) ∧
    (shouldSplitCommitTransactionRequest knobs req n = true →
      ∀ p ∈ splitCommitTransactionRequest sid req n,
        ∃ i, i < n ∧ p.splitTransaction = some ⟨sid, n, i⟩ ∧ 2 ≤ n) := by
  have hiff : shouldSplitCommitTransactionRequest knobs req n = true ↔
      2 ≤ n ∧ 2 ≤ req.mutations.length ∧
        knobs.transactionSplitMode % 2 = 1 ∧
        knobs.largeTransactionCriteria ≤ totalValueSize req := by
    unfold shouldSplitCommitTransactionRequest
    by_cases h : n < 2 ∨ req.mutations.length < 2 ∨
        knobs.transactionSplitMode % 2 = 0
    · rw [if_pos h]
      constructor
      · intro hfalse; exact absurd hfalse (by simp)
      · rintro ⟨h1, h2, h3, _⟩
        rcases h with h | h | h <;> omega
    · rw [if_neg h]
      push_neg at h
      constructor
      · intro hd
        refine ⟨by omega, by omega, by omega, ?_⟩
        exact of_decide_eq_true hd
      · rintro ⟨_, _, _, hc⟩
        exact decide_eq_true hc
  refine ⟨hiff, ?_⟩
  intro hs p hp
  have h2n : 2 ≤ n := (hiff.mp hs).1
  have hmap := distributeMutationsGo_map_splitTransaction
    req.mutations (mutationPopOrder req.mutations)
    ((List.range (prepareSplitTransactions sid n).length).map fun i => ⟨0, i⟩)
    (prepareSplitTransactions sid n)
  have hmem : p.splitTransaction ∈
      (splitCommitTransactionRequest sid req n).map
        CommitTransactionRequestM.splitTransaction :=
    List.mem_map_of_mem _ hp
  rw [show splitCommitTransactionRequest sid req n =
        distributeMutationsGo req.mutations (mutationPopOrder req.mutations)
          ((List.range (prepareSplitTransactions sid n).length).map fun i => ⟨0, i⟩)
          (prepareSplitTransactions sid n) from rfl, hmap] at hmem
  simp only [prepareSplitTransactions, List.map_map, List.mem_map,
    List.mem_range, Function.comp] at hmem
  obtain ⟨i, hi, hval⟩ := hmem
  exact ⟨i, hi, hval.symm, h2n⟩

/-- Witness for C6 at concrete inputs: knob mode 1 (splitting enabled),
criteria 100, three proxies, and a ten-mutation request of total value
size 550. -/
theorem c6_shouldSplit_characterization_witness :
    (shouldSplitCommitTransactionRequest ⟨1, 100⟩
        ⟨[⟨100⟩, ⟨90⟩, ⟨80⟩, ⟨70⟩, ⟨60⟩, ⟨50⟩, ⟨40⟩, ⟨30⟩, ⟨20⟩, ⟨10⟩],
          false, none⟩ 3 = true ↔
      2 ≤ 3 ∧ 2 ≤ ([⟨100⟩, ⟨90⟩, ⟨80⟩, ⟨70⟩, ⟨60⟩, ⟨50⟩, ⟨40⟩, ⟨30⟩, ⟨20⟩,
          (⟨10⟩ : Mutation)] : List Mutation).length ∧
        (1 : ℕ) % 2 = 1 ∧
        100 ≤ totalValueSize ⟨[⟨100⟩, ⟨90⟩, ⟨80⟩, ⟨70⟩, ⟨60⟩, ⟨50⟩, ⟨40⟩,
          ⟨30⟩, ⟨20⟩, ⟨10⟩], false, none⟩) ∧
    (∀ p ∈ splitCommitTransactionRequest 7
        ⟨[⟨100⟩, ⟨90⟩, ⟨80⟩, ⟨70⟩, ⟨60⟩, ⟨50⟩, ⟨40⟩, ⟨30⟩, ⟨20⟩, ⟨10⟩],
          false, none⟩ 3,
      ∃ i, i < 3 ∧ p.splitTransaction = some ⟨7, 3, i⟩ ∧ 2 ≤ 3) :=
  ⟨(c6_shouldSplit_characterization ⟨1, 100⟩ _ 3 7).1,
    (c6_shouldSplit_characterization ⟨1, 100⟩ _ 3 7).2 (by decide)⟩

/-- The ten-mutation request of the specification's Scenario B: value
sizes `[100, 90, 80, 70, 60, 50, 40, 30, 20, 10]` (in KB). -/
def scenarioBRequest : CommitTransactionRequestM :=
  { mutations := [⟨100⟩, ⟨90⟩, ⟨80⟩, ⟨70⟩, ⟨60⟩, ⟨50⟩, ⟨40⟩, ⟨30⟩, ⟨20⟩, ⟨10⟩]
    flagFirstInBatch := false
    splitTransaction := none }

/-! ## TLog persistent queue framing (src/fdbserver/TLogServer.actor.cpp)

`TLogQueue::push` (lines 693-706) frames each record as
`uint32_t payloadSize || payload || uint8_t validFlag(=1)` on the disk
queue; `TLogQueue::readNext` (lines 182-226) reads the records back on
recovery and zero-fills a torn tail.  Bytes are modelled as `ℕ` values
`< 256`; the payload (the `IncludeVersion`-enveloped serialized
`TLogQueueEntryRef`) is treated as an opaque byte list, since the flow
serializer is not part of the source snapshot and the claim is about
the framing. -/

/-- Little-endian 4-byte encoding of a `uint32_t`. -/
def toLE4 (n : ℕ) : List ℕ :=
  [n % 256, n / 256 % 256, n / 256 ^ 2 % 256, n / 256 ^ 3 % 256]

/-- Little-endian value of a byte list (the `memcpy` of
TLogServer.actor.cpp:193 and the `*(uint32_t*)h.begin()` of line 200,
on a little-endian machine; missing high bytes read as zero). -/
def fromLEBytes : List ℕ → ℕ
  | [] => 0
  | b :: rest => b + 256 * fromLEBytes rest

/-- Source `TLogQueue::push` framing (TLogServer.actor.cpp:694-700):
`uint32_t payloadSize || payload || uint8_t(1)`. -/
def pushFrame (payload : List ℕ) : List ℕ :=
  toLE4 payload.length ++ payload ++ [1]

/-- The byte stream of a sequence of pushed records. -/
def encodeQueue (payloads : List (List ℕ)) : List ℕ :=
  (payloads.map pushFrame).join

/-- Length of the 4-byte size field. -/
theorem toLE4_length (n : ℕ) : (toLE4 n).length = 4 := rfl

/-- Length of a pushed frame: size field, payload, valid flag. -/
theorem pushFrame_length (p : List ℕ) : (pushFrame p).length = p.length + 5 := by
  simp [pushFrame, toLE4]

/-- Source `TLogQueue::readNext` (TLogServer.actor.cpp:182-226), run to
`end_of_stream`: returns the list of successfully parsed record
payloads and the computed `zeroFillSize`.  A short size field with at
least one byte computes `zeroFillSize = (4 - h.size()) + payloadSize +
1` from the partially-read size (lines 190-196); a short
`payload+flag` read computes `zeroFillSize = payloadSize + 1 - e.size()`
(lines 204-208); a complete record with a zero valid flag is skipped
and reading continues (the `if (e[payloadSize])` of line 210 falls
through to the next loop iteration).  The `ASSERT(payloadSize <
(100<<20))` of line 201 holds under the hypotheses of the theorems
below and is not modelled as a failure. -/
def readAllRecords (q : List ℕ) : List (List ℕ) × ℕ :=
  if h4 : (q.take 4).length = 4 then
    if he : ((q.drop 4).take (fromLEBytes (q.take 4) + 1)).length =
        fromLEBytes (q.take 4) + 1 then
      if ((q.drop 4).take (fromLEBytes (q.take 4) + 1)).getD
          (fromLEBytes (q.take 4)) 0 ≠ 0 then
        (((q.drop 4).take (fromLEBytes (q.take 4) + 1)).take (fromLEBytes (q.take 4)) ::
            (readAllRecords (q.drop (4 + (fromLEBytes (q.take 4) + 1)))).1,
          (readAllRecords (q.drop (4 + (fromLEBytes (q.take 4) + 1)))).2)
      else
        readAllRecords (q.drop (4 + (fromLEBytes (q.take 4) + 1)))
    else
      ([], fromLEBytes (q.take 4) + 1 -
        ((q.drop 4).take (fromLEBytes (q.take 4) + 1)).length)
  else
    if (q.take 4).length = 0 then ([], 0)
    else ([], (4 - (q.take 4).length) + (fromLEBytes (q.take 4) + 1))
termination_by q.length
decreasing_by
  all_goals
    simp only [List.length_take, List.length_drop] at *
    omega

/-- The number of leading records whose complete frame
(4-byte size, payload, valid flag) fits inside a prefix of `n` bytes. -/
def numCompleteRecords : List (List ℕ) → ℕ → ℕ
  | [], _ => 0
  | p :: ps, n =>
    if p.length + 5 ≤ n then numCompleteRecords ps (n - (p.length + 5)) + 1
    else 0

theorem fromLEBytes_toLE4 (n : ℕ) (h : n < 2 ^ 32) :
    fromLEBytes (toLE4 n) = n := by
  simp only [toLE4, fromLEBytes]
  omega

/-- Reading a stream that starts with one complete valid frame yields
that record's payload and continues with the remainder of the stream. -/
theorem readAllRecords_frame (p rest : List ℕ) (hlen : p.length < 2 ^ 32) :
    readAllRecords (pushFrame p ++ rest) =
      (p :: (readAllRecords rest).1, (readAllRecords rest).2) := by
  have hassoc : pushFrame p ++ rest = toLE4 p.length ++ ((p ++ [1]) ++ rest) := by
    simp [pushFrame]
  have h1 : (pushFrame p ++ rest).take 4 = toLE4 p.length := by
    rw [hassoc]
    exact List.take_left' (toLE4_length p.length)
  have h2 : (pushFrame p ++ rest).drop 4 = (p ++ [1]) ++ rest := by
    rw [hassoc]
    exact List.drop_left' (toLE4_length p.length)
  have h3 : fromLEBytes ((pushFrame p ++ rest).take 4) = p.length := by
    rw [h1, fromLEBytes_toLE4 p.length hlen]
  have h4 : ((pushFrame p ++ rest).drop 4).take (p.length + 1) = p ++ [1] := by
    rw [h2]
    exact List.take_left' (by simp)
  have h5 : (p ++ [1]).getD p.length 0 = 1 := by
    simp [List.getD, List.getElem?_append_right (le_refl p.length)]
  have h6 : (pushFrame p ++ rest).drop (4 + (p.length + 1)) = rest := by
    rw [show pushFrame p ++ rest = (toLE4 p.length ++ (p ++ [1])) ++ rest by
          simp [pushFrame]]
    exact List.drop_left' (by simp [toLE4_length])
  have h7 : (p ++ [1]).take p.length = p := List.take_left' rfl
  conv_lhs => rw [readAllRecords.eq_def]
  rw [dif_pos (by rw [h1]; rfl)]
  rw [h3, h4]
  rw [dif_pos (by simp)]
  rw [if_pos (by rw [h5]; exact one_ne_zero)]
  rw [h6, h7]

/-- Reading a strictly partial frame yields no record. -/
theorem readAllRecords_partial (p : List ℕ) (n : ℕ)
    (hn : n < p.length + 5) (hlen : p.length < 2 ^ 32) :
    (readAllRecords ((pushFrame p).take n)).1 = [] := by
  conv_lhs => rw [readAllRecords.eq_def]
  by_cases h4 : n < 4
  · have hlt : (((pushFrame p).take n).take 4).length ≠ 4 := by
      rw [List.take_take, List.length_take, pushFrame_length]
      omega
    rw [dif_neg hlt]
    split <;> rfl
  · push_neg at h4
    have hq : (pushFrame p).take n = toLE4 p.length ++ ((p ++ [1]).take (n - 4)) := by
      rw [show pushFrame p = toLE4 p.length ++ (p ++ [1]) by simp [pushFrame],
        List.take_append_eq_append_take, toLE4_length,
        List.take_of_length_le (by rw [toLE4_length]; omega)]
    have ht4 : ((pushFrame p).take n).take 4 = toLE4 p.length := by
      rw [hq]
      exact List.take_left' (toLE4_length p.length)
    have hd4 : ((pushFrame p).take n).drop 4 = (p ++ [1]).take (n - 4) := by
      rw [hq]
      exact List.drop_left' (toLE4_length p.length)
    rw [dif_pos (by rw [ht4]; rfl)]
    have hfl : fromLEBytes (((pushFrame p).take n).take 4) = p.length := by
      rw [ht4, fromLEBytes_toLE4 p.length hlen]
    rw [hfl, hd4]
    have hshort : (((p ++ [1]).take (n - 4)).take (p.length + 1)).length ≠
        p.length + 1 := by
      rw [List.take_take, List.length_take, List.length_append]
      simp only [List.length_singleton]
      omega
    rw [dif_neg hshort]

/-- C2: zero-fill recovery returns exactly the complete records.  For
every sequence of pushed records (each payload below the 100 MB framing
assertion bound) and every byte-prefix truncation of the disk queue,
`readNext`-until-`end_of_stream` returns exactly the payloads whose
complete `(u32 size, payload, valid flag)` frame lies inside the
surviving prefix: no partial and no post-fault record is ever
returned. -/
theorem c2_zero_fill_recovery (payloads : List (List ℕ)) (n : ℕ)
    (hsz : ∀ p ∈ payloads, p.length < 100 * 2 ^ 20) :
    (readAllRecords ((encodeQueue payloads).take n)).1 =
      payloads.take (numCompleteRecords payloads n) := by
  induction payloads generalizing n with
  | nil =>
    rw [show encodeQueue [] = [] from rfl, List.take_nil, readAllRecords.eq_def]
    simp [numCompleteRecords]
  | cons p ps ih =>
    have hlen : p.length < 2 ^ 32 := by
      have := hsz p (List.mem_cons_self p ps)
      omega
    have henc : encodeQueue (p :: ps) = pushFrame p ++ encodeQueue ps := by
      simp [encodeQueue]
    rw [henc]
    by_cases hfit : p.length + 5 ≤ n
    · have hsplit : (pushFrame p ++ encodeQueue ps).take n =
          pushFrame p ++ (encodeQueue ps).take (n - (p.length + 5)) := by
        rw [List.take_append_eq_append_take]
        congr 1
        · exact List.take_of_length_le (by rw [pushFrame_length]; omega)
        · rw [pushFrame_length]
      rw [hsplit, readAllRecords_frame p _ hlen]
      rw [show numCompleteRecords (p :: ps) n =
            numCompleteRecords ps (n - (p.length + 5)) + 1 by
          rw [numCompleteRecords, if_pos hfit]]
      rw [List.take_succ_cons]
      rw [ih _ (fun q hq => hsz q (List.mem_cons_of_mem p hq))]
    · push_neg at hfit
      have hsplit : (pushFrame p ++ encodeQueue ps).take n = (pushFrame p).take n := by
        rw [List.take_append_eq_append_take]
        rw [show n - (pushFrame p).length = 0 by rw [pushFrame_length]; omega]
        simp
      rw [hsplit]
      rw [show numCompleteRecords (p :: ps) n = 0 by
          rw [numCompleteRecords, if_neg (by omega)]]
      rw [List.take_zero]
      exact readAllRecords_partial p n hfit hlen

/-- Witness for C2: two records with payloads `[7, 8]` and `[9]`;
truncating the queue to 9 bytes keeps the first frame (7 bytes) but
cuts the second, so recovery returns exactly the first payload. -/
theorem c2_zero_fill_recovery_witness :
    (∀ p ∈ [[7, 8], [9]], List.length p < 100 * 2 ^ 20) ∧
    (readAllRecords ((encodeQueue [[7, 8], [9]]).take 9)).1 =
      [[7, 8], [9]].take (numCompleteRecords [[7, 8], [9]] 9) :=
  ⟨by decide, c2_zero_fill_recovery [[7, 8], [9]] 9 (by decide)⟩

/-! ## Commit batcher (src/fdbserver/MasterProxyServer.actor.cpp:630-701)

`commitBatcher` consumes a stream of `CommitTransactionRequest`s and
emits `(batch, batchBytes)` pairs.  The actor's real-time behaviour
(jittered timers) is modelled by an explicit event stream: a `request`
event is one execution of the `when(CommitTransactionRequest req =
waitNext(in))` body, a `timeout` event is the inner `while` loop ending
(timer fired, line 695/647) followed by the emission of line 698.  The
emissions of lines 684 and 698 and the `COMMIT_TRANSACTION_BATCH_COUNT_MAX` /
`desiredBytes` loop exit are all represented. -/

/-- The view of a request the batcher reads: its serialized size
(`getBytes(req)`, line 652), `req.firstInBatch()` (the
`FLAG_FIRST_IN_BATCH` bit) and the optional `SplitTransaction`
marker. -/
structure ProxyCommitRequest where
  bytes : ℕ
  flagFirstInBatch : Bool
  splitTransaction : Option SplitTransactionM
deriving DecidableEq

/-- Knobs read by the batcher loop. -/
structure BatcherKnobs where
  /-- `COMMIT_TRANSACTION_BATCH_COUNT_MAX`. -/
  commitTransactionBatchCountMax : ℕ
  /-- `TRANSACTION_SIZE_LIMIT`. -/
  transactionSizeLimit : ℕ
  /-- `desiredBytes` argument of `commitBatcher`. -/
  desiredBytes : ℕ
  /-- `memBytesLimit` argument of `commitBatcher`. -/
  memBytesLimit : ℕ

/-- Mutable state of the batcher loop: the open batch and its byte
count, the proxy-wide `commitBatchesMemBytesCount`, the emitted
batches (sends on `out`), and the `txnCommitErrors` counter. -/
structure BatcherState where
  batch : List ProxyCommitRequest
  batchBytes : ℕ
  commitBatchesMemBytesCount : ℕ
  outBatches : List (List ProxyCommitRequest × ℕ)
  txnCommitErrors : ℕ
deriving DecidableEq

/-- An event the batcher reacts to. -/
inductive BatcherEvent
  | request (r : ProxyCommitRequest)
  | timeout
deriving DecidableEq

/-- Initial batcher state. -/
def initialBatcherState : BatcherState := ⟨[], 0, 0, [], 0⟩

/-- Emission of the open batch on the `out` stream
(MasterProxyServer.actor.cpp:684 and 698): send `(batch, batchBytes)`
and reset both. -/
def emitBatch (st : BatcherState) : BatcherState :=
  { st with
      outBatches := st.outBatches ++ [(st.batch, st.batchBytes)]
      batch := []
      batchBytes := 0 }

/-- The flush-before-add of MasterProxyServer.actor.cpp:683-689:
`(batchBytes + bytes > TRANSACTION_SIZE_LIMIT || req.firstInBatch()) &&
batch.size()`. -/
def batcherFlushIfNeeded (knobs : BatcherKnobs) (r : ProxyCommitRequest)
    (st : BatcherState) : BatcherState :=
  if (knobs.transactionSizeLimit < st.batchBytes + r.bytes ∨
        r.flagFirstInBatch = true) ∧ st.batch ≠ [] then
    emitBatch st
  else st

/-- The append and accounting of MasterProxyServer.actor.cpp:691-693:
`batch.push_back(req); batchBytes += bytes;
commitBatchesMemBytesCount += bytes;`. -/
def batcherAppend (r : ProxyCommitRequest) (st : BatcherState) :
    BatcherState :=
  { st with
      batch := st.batch ++ [r]
      batchBytes := st.batchBytes + r.bytes
      commitBatchesMemBytesCount := st.commitBatchesMemBytesCount + r.bytes }

/-- The inner `while` condition of MasterProxyServer.actor.cpp:647: when
the batch reaches `COMMIT_TRANSACTION_BATCH_COUNT_MAX` requests or
`desiredBytes`, the loop exits and line 698 emits the batch. -/
def batcherMaybeClose (knobs : BatcherKnobs) (st : BatcherState) :
    BatcherState :=
  if st.batch.length = knobs.commitTransactionBatchCountMax ∨
      knobs.desiredBytes ≤ st.batchBytes then
    emitBatch st
  else st

/-- One reaction of `commitBatcher` (MasterProxyServer.actor.cpp:647-699)
to an event.  A `request` event: the memory-pressure rejection of lines
655-660, then flush-before-add, append and accounting, and the
count/byte loop exit.  A `timeout` event: the emission of line 698. -/
def commitBatcherStep (knobs : BatcherKnobs) (st : BatcherState) :
    BatcherEvent → BatcherState
  | .timeout => emitBatch st
  | .request r =>
    if knobs.memBytesLimit < st.commitBatchesMemBytesCount + r.bytes then
      { st with txnCommitErrors := st.txnCommitErrors + 1 }
    else
      batcherMaybeClose knobs (batcherAppend r (batcherFlushIfNeeded knobs r st))

/-- The batcher over a whole event stream. -/
def commitBatcherRun (knobs : BatcherKnobs) (evs : List BatcherEvent) :
    BatcherState :=
  evs.foldl (commitBatcherStep knobs) initialBatcherState

/-- A request list in which any request carrying a `SplitTransaction`
marker sits at position 0. -/
def splitOnlyFirst (l : List ProxyCommitRequest) : Prop :=
  ∀ i r, l.get? i = some r → r.splitTransaction.isSome → i = 0

/-- The batcher invariant: all emitted batches, and the open batch,
keep any split request at position 0. -/
def BatcherSplitInv (st : BatcherState) : Prop :=
  (∀ b ∈ st.outBatches, splitOnlyFirst b.1) ∧ splitOnlyFirst st.batch

theorem splitOnlyFirst_nil : splitOnlyFirst [] := by
  intro i r h
  simp at h

theorem splitOnlyFirst_singleton (r : ProxyCommitRequest) :
    splitOnlyFirst [r] := by
  intro i q h _
  cases i with
  | zero => rfl
  | succ j => simp at h

theorem splitOnlyFirst_append_nonsplit {l : List ProxyCommitRequest}
    (hl : splitOnlyFirst l) {r : ProxyCommitRequest}
    (hr : r.splitTransaction.isSome = false) :
    splitOnlyFirst (l ++ [r]) := by
  intro i q h hq
  rcases lt_or_ge i l.length with hi | hi
  · exact hl i q (by rw [List.get?_append hi] at h; exact h) hq
  · have hi2 : i < l.length + 1 := by
      have := List.get?_eq_some.mp h
      simpa using this.1
    have : i = l.length := by omega
    subst this
    rw [List.get?_append_right hi] at h
    simp at h
    rw [← h] at hq
    rw [hr] at hq
    cases hq

theorem emitBatch_preserves_inv {st : BatcherState}
    (hst : BatcherSplitInv st) : BatcherSplitInv (emitBatch st) := by
  obtain ⟨hout, hbatch⟩ := hst
  refine ⟨?_, splitOnlyFirst_nil⟩
  intro b hb
  rcases List.mem_append.mp hb with h | h
  · exact hout b h
  · rw [List.mem_singleton.mp h]
    exact hbatch

theorem batcherMaybeClose_preserves_inv (knobs : BatcherKnobs)
    {st : BatcherState} (hst : BatcherSplitInv st) :
    BatcherSplitInv (batcherMaybeClose knobs st) := by
  unfold batcherMaybeClose
  split
  · exact emitBatch_preserves_inv hst
  · exact hst

theorem batcherFlushIfNeeded_preserves_inv (knobs : BatcherKnobs)
    (r : ProxyCommitRequest) {st : BatcherState}
    (hst : BatcherSplitInv st) :
    BatcherSplitInv (batcherFlushIfNeeded knobs r st) := by
  unfold batcherFlushIfNeeded
  split
  · exact emitBatch_preserves_inv hst
  · exact hst

/-- After the flush-before-add runs for a `FLAG_FIRST_IN_BATCH`
request, the open batch is empty. -/
theorem batcherFlushIfNeeded_firstInBatch (knobs : BatcherKnobs)
    {r : ProxyCommitRequest} (hfib : r.flagFirstInBatch = true)
    (st : BatcherState) :
    (batcherFlushIfNeeded knobs r st).batch = [] := by
  unfold batcherFlushIfNeeded
  by_cases hne : st.batch = []
  · split
    · rfl
    · exact hne
  · rw [if_pos ⟨Or.inr hfib, hne⟩]
    rfl

/-- The property `prepareSplitTransactions` establishes for every part
it emits into the stream: a request carrying a `SplitTransaction`
marker also carries `FLAG_FIRST_IN_BATCH`
(MasterProxyInterface.cpp:87-90). -/
def splitCarriesFirstFlag : BatcherEvent → Prop
  | .request r => r.splitTransaction.isSome = true → r.flagFirstInBatch = true
  | .timeout => True

instance (ev : BatcherEvent) : Decidable (splitCarriesFirstFlag ev) := by
  cases ev with
  | request r => exact inferInstanceAs (Decidable (_ → _))
  | timeout => exact inferInstanceAs (Decidable True)

/-- One batcher step preserves the split-at-position-0 invariant, as
long as every split request in the stream carries
`FLAG_FIRST_IN_BATCH` (which `prepareSplitTransactions` guarantees). -/
theorem commitBatcherStep_preserves_inv (knobs : BatcherKnobs)
    (st : BatcherState) (ev : BatcherEvent)
    (hev : splitCarriesFirstFlag ev)
    (hst : BatcherSplitInv st) :
    BatcherSplitInv (commitBatcherStep knobs st ev) := by
  cases ev with
  | timeout => exact emitBatch_preserves_inv hst
  | request r =>
    simp only [commitBatcherStep]
    by_cases hmem : knobs.memBytesLimit < st.commitBatchesMemBytesCount + r.bytes
    · rw [if_pos hmem]
      exact ⟨hst.1, hst.2⟩
    · rw [if_neg hmem]
      apply batcherMaybeClose_preserves_inv
      have hst' := batcherFlushIfNeeded_preserves_inv knobs r hst
      obtain ⟨hout', hbatch'⟩ := hst'
      refine ⟨hout', ?_⟩
      show splitOnlyFirst ((batcherFlushIfNeeded knobs r st).batch ++ [r])
      by_cases hsp : r.splitTransaction.isSome
      · have hfib : r.flagFirstInBatch = true := hev hsp
        rw [batcherFlushIfNeeded_firstInBatch knobs hfib st]
        simpa using splitOnlyFirst_singleton r
      · exact splitOnlyFirst_append_nonsplit hbatch'
          (by simpa using hsp)

theorem commitBatcherFold_preserves_inv (knobs : BatcherKnobs) :
    ∀ (evs : List BatcherEvent) (st : BatcherState),
      (∀ ev ∈ evs, splitCarriesFirstFlag ev) → BatcherSplitInv st →
      BatcherSplitInv (evs.foldl (commitBatcherStep knobs) st) := by
  intro evs
  induction evs with
  | nil => intro st _ hst; exact hst
  | cons ev rest ih =>
    intro st hevs hst
    exact ih (commitBatcherStep knobs st ev)
      (fun e he => hevs e (List.mem_cons_of_mem _ he))
      (commitBatcherStep_preserves_inv knobs st ev
        (hevs ev (List.mem_cons_self ev rest)) hst)

theorem batcherFlushIfNeeded_mem (knobs : BatcherKnobs)
    (r : ProxyCommitRequest) (st : BatcherState) :
    (batcherFlushIfNeeded knobs r st).commitBatchesMemBytesCount =
      st.commitBatchesMemBytesCount := by
  unfold batcherFlushIfNeeded
  split <;> rfl

theorem batcherMaybeClose_mem (knobs : BatcherKnobs) (st : BatcherState) :
    (batcherMaybeClose knobs st).commitBatchesMemBytesCount =
      st.commitBatchesMemBytesCount := by
  unfold batcherMaybeClose
  split <;> rfl

/-- C5 (counterexample): with ample knobs (`TRANSACTION_SIZE_LIMIT`
1000, `desiredBytes` 100, count cap 10, memory limit 10^6), a
10-byte split part followed by a 10-byte ordinary request within one
timer window is emitted as ONE batch of TWO requests: the batcher only
flushes *before* a `FIRST_IN_BATCH` request, so a later request may
join the split's batch.  This refutes "every batch that contains a
split request consists of exactly that one request". -/
theorem c5_counterexample_split_batch_not_alone :
    ∃ b ∈ (commitBatcherRun ⟨10, 1000, 100, 1000000⟩
        [BatcherEvent.request ⟨10, true, some ⟨0, 3, 0⟩⟩,
         BatcherEvent.request ⟨10, false, none⟩,
         BatcherEvent.timeout]).outBatches,
      (∃ r ∈ b.1, r.splitTransaction.isSome = true) ∧ b.1.length = 2 := by
  decide

/-- C5 (amended): provided every split part in the input stream carries
`FLAG_FIRST_IN_BATCH` (as `prepareSplitTransactions` guarantees), a
request carrying a `SplitTransaction` marker is always the FIRST
element of the batch it is emitted in — it never joins a batch that
already has requests in it — and its bytes are still added to
`commitBatchesMemBytesCount` whenever it is not rejected by the memory
limit. -/
theorem c5_split_first_and_accounted (knobs : BatcherKnobs)
    (evs : List BatcherEvent)
    (hsplit : ∀ ev ∈ evs, splitCarriesFirstFlag ev) :
    (∀ b ∈ (commitBatcherRun knobs evs).outBatches, splitOnlyFirst b.1) ∧
    (∀ (st : BatcherState) (r : ProxyCommitRequest),
      st.commitBatchesMemBytesCount + r.bytes ≤ knobs.memBytesLimit →
      (commitBatcherStep knobs st (.request r)).commitBatchesMemBytesCount =
        st.commitBatchesMemBytesCount + r.bytes) := by
  constructor
  · have h := commitBatcherFold_preserves_inv knobs evs initialBatcherState
      hsplit ⟨by intro b hb; simp [initialBatcherState] at hb, splitOnlyFirst_nil⟩
    exact h.1
  · intro st r hmem
    have hmem' : ¬ knobs.memBytesLimit < st.commitBatchesMemBytesCount + r.bytes := by
      omega
    simp only [commitBatcherStep, if_neg hmem']
    rw [batcherMaybeClose_mem]
    show (batcherFlushIfNeeded knobs r st).commitBatchesMemBytesCount + r.bytes = _
    rw [batcherFlushIfNeeded_mem]

/-- Witness for C5 (amended) at a concrete stream: a split part, an
ordinary request and a timer expiry. -/
theorem c5_split_first_and_accounted_witness :
    (∀ b ∈ (commitBatcherRun ⟨10, 1000, 100, 1000000⟩
        [BatcherEvent.request ⟨10, true, some ⟨0, 3, 0⟩⟩,
         BatcherEvent.request ⟨10, false, none⟩,
         BatcherEvent.timeout]).outBatches, splitOnlyFirst b.1) ∧
    (∀ (st : BatcherState) (r : ProxyCommitRequest),
      st.commitBatchesMemBytesCount + r.bytes ≤ (1000000 : ℕ) →
      (commitBatcherStep ⟨10, 1000, 100, 1000000⟩ st
          (.request r)).commitBatchesMemBytesCount =
        st.commitBatchesMemBytesCount + r.bytes) :=
  c5_split_first_and_accounted ⟨10, 1000, 100, 1000000⟩
    [BatcherEvent.request ⟨10, true, some ⟨0, 3, 0⟩⟩,
     BatcherEvent.request ⟨10, false, none⟩,
     BatcherEvent.timeout] (by decide)

/-- One LPT step at the level of the multiset of part loads: assign a
job of size `s` to some currently-least-loaded part.  The C++
`priority_queue` does not specify which of several equally-loaded parts
is on top, so the chosen minimum is existentially quantified. -/
def LptStepR (s : ℕ) (m m' : Multiset ℕ) : Prop :=
  ∃ l, l ∈ m ∧ (∀ x ∈ m, l ≤ x) ∧ m' = (l + s) ::ₘ m.erase l

/-- A complete LPT run over a job sequence, at the level of the
multiset of part loads. -/
def LptRunR : List ℕ → Multiset ℕ → Multiset ℕ → Prop
  | [], m, m' => m' = m
  | s :: rest, m, m'' => ∃ m', LptStepR s m m' ∧ LptRunR rest m' m''

/-- The load multiset after an LPT step does not depend on which of
several minimal parts the heap happened to surface. -/
theorem lptStepR_deterministic {s : ℕ} {m m₁ m₂ : Multiset ℕ}
    (h₁ : LptStepR s m m₁) (h₂ : LptStepR s m m₂) : m₁ = m₂ := by
  obtain ⟨l₁, hl₁m, hl₁min, hm₁⟩ := h₁
  obtain ⟨l₂, hl₂m, hl₂min, hm₂⟩ := h₂
  have : l₁ = l₂ := le_antisymm (hl₁min l₂ hl₂m) (hl₂min l₁ hl₁m)
  subst this
  rw [hm₁, hm₂]

/-- The final load multiset of an LPT run is independent of all
tie-breaking choices. -/
theorem lptRunR_deterministic :
    ∀ (sizes : List ℕ) (m m₁ m₂ : Multiset ℕ),
      LptRunR sizes m m₁ → LptRunR sizes m m₂ → m₁ = m₂ := by
  intro sizes
  induction sizes with
  | nil => intro m m₁ m₂ h₁ h₂; rw [show m₁ = m from h₁, show m₂ = m from h₂]
  | cons s rest ih =>
    intro m m₁ m₂ h₁ h₂
    obtain ⟨m₁', hs₁, hr₁⟩ := h₁
    obtain ⟨m₂', hs₂, hr₂⟩ := h₂
    have := lptStepR_deterministic hs₁ hs₂
    subst this
    exact ih m₁' m₁ m₂ hr₁ hr₂

/-- C7 (counterexample): on the Scenario-B input (ten mutations of
value sizes 100..10 KB and three proxies), `distributeMutations` does
NOT produce the load multiset `{100+60+30+10, 90+50+40, 80+70+20} =
{200, 180, 170}` claimed by the specification. -/
theorem c7_counterexample_loads :
    ¬ (Multiset.ofList (partLoads (splitCommitTransactionRequest 0 scenarioBRequest 3)) =
        ({100 + 60 + 30 + 10, 90 + 50 + 40, 80 + 70 + 20} : Multiset ℕ)) := by
  decide

/-- C7 (amended): on the Scenario-B input the LPT assignment of
`distributeMutations` produces the part-load multiset `{190, 180,
180}` — and so does every run of the LPT heuristic on those sizes
regardless of how ties between equally loaded parts are broken. -/
theorem c7_lpt_loads :
    Multiset.ofList (partLoads (splitCommitTransactionRequest 0 scenarioBRequest 3)) =
      ({190, 180, 180} : Multiset ℕ) ∧
    ∀ final : Multiset ℕ,
      LptRunR (scenarioBRequest.mutations.map Mutation.param2Size)
        ({0, 0, 0} : Multiset ℕ) final →
      final = ({190, 180, 180} : Multiset ℕ) := by
  constructor
  · decide
  · have hrun : LptRunR (scenarioBRequest.mutations.map Mutation.param2Size)
        ({0, 0, 0} : Multiset ℕ) ({190, 180, 180} : Multiset ℕ) :=
      ⟨{100, 0, 0}, ⟨0, by decide, by decide, by decide⟩,
        {100, 90, 0}, ⟨0, by decide, by decide, by decide⟩,
        {100, 90, 80}, ⟨0, by decide, by decide, by decide⟩,
        {100, 90, 150}, ⟨80, by decide, by decide, by decide⟩,
        {100, 150, 150}, ⟨90, by decide, by decide, by decide⟩,
        {150, 150, 150}, ⟨100, by decide, by decide, by decide⟩,
        {190, 150, 150}, ⟨150, by decide, by decide, by decide⟩,
        {190, 180, 150}, ⟨150, by decide, by decide, by decide⟩,
        {190, 180, 170}, ⟨150, by decide, by decide, by decide⟩,
        ⟨{190, 180, 180}, ⟨170, by decide, by decide, by decide⟩, rfl⟩⟩
    intro final hfinal
    exact lptRunR_deterministic _ _ _ _ hfinal hrun

/-! ## TLog server state (src/fdbserver/TLogServer.actor.cpp)

The model keeps, for one `LogData` instance inside one shared
`TLogData`, exactly the fields the claims read: the four version
counters, the byte accounting (`bytesInput`/`bytesDurable`, summing the
per-instance and shared counters, which coincide for a single
instance), the `messageBlocks` deque (a block is modelled by its
version and payload byte count), the per-tag data (`popped` and the
`versionMessages` deque of `(version, message size)` entries), and the
entries pushed on the persistent queue.  Disk-queue locations, the
spill key-value writes, peek tracking and recovery fields are not read
by any claim and are omitted. -/

/-- A tag: `(locality : int8_t, id : uint16_t)` (spec §3; the defining
header fdbclient/FDBTypes.h is not in the source snapshot). -/
structure TagM where
  locality : ℤ
  id : ℕ
deriving DecidableEq

/-- Locality constants used by `commitMessages`' tag filter.  The
numeric values come from the spec's locality taxonomy (§3); only their
distinctness matters to the embedded control flow. -/
def tagLocalitySpecial : ℤ := -1

def tagLocalityLogRouter : ℤ := -2

def tagLocalitySatellite : ℤ := -5

def tagLocalityTxs : ℤ := -7

/-- The upgraded-txs tag `txsTag`. -/
def txsTag : TagM := ⟨tagLocalitySpecial, 1⟩

/-- One `TagsAndMessage` parsed out of a commit request's `messages`
blob: its destination tags and its serialized size
(`msg.message.size()`).  The message bytes themselves are opaque to the
TLog index and are represented by the size. -/
structure TagsAndMessageM where
  tags : List TagM
  messageSize : ℕ
deriving DecidableEq

/-- Per-tag state: `TagData::popped` and the
`versionMessages` deque of `(version, length-prefixed message)` pairs,
each message represented by its size
(TLogServer.actor.cpp:403-412). -/
structure TagDataM where
  popped : ℕ
  versionMessages : List (ℕ × ℕ)
deriving DecidableEq

/-- A `TLogQueueEntryRef` (TLogServer.actor.cpp:86-105): version,
known-committed version and the message blob (modelled parsed). -/
structure TLogQueueEntryM where
  version : ℕ
  knownCommittedVersion : ℕ
  messages : List TagsAndMessageM
deriving DecidableEq

/-- A `TLogCommitRequest` (TLogInterface.h:243-261), with `messages`
modelled parsed and `additionalMessages` the list of message blobs
merged from the other split parts. -/
structure TLogCommitRequestM where
  prevVersion : ℕ
  version : ℕ
  knownCommittedVersion : ℕ
  minKnownCommittedVersion : ℕ
  messages : List TagsAndMessageM
  additionalMessages : Option (List (List TagsAndMessageM))
  splitTransaction : Option SplitTransactionM
deriving DecidableEq

/-- State of one TLog instance. -/
structure LogDataState where
  version : ℕ
  queueCommittedVersion : ℕ
  persistentDataVersion : ℕ
  persistentDataDurableVersion : ℕ
  knownCommittedVersion : ℕ
  minKnownCommittedVersion : ℕ
  durableKnownCommittedVersion : ℕ
  bytesInput : ℕ
  bytesDurable : ℕ
  messageBlocks : List (ℕ × ℕ)
  tagData : List (TagM × TagDataM)
  persistentQueue : List TLogQueueEntryM
  logLocality : ℤ
  logRouterTags : ℕ
  txsTags : ℕ
deriving DecidableEq

/-- Accounted bytes of one message block:
`int64_t(block.size()) * SERVER_KNOBS->TLOG_MESSAGE_BLOCK_OVERHEAD_FACTOR`
(TLogServer.actor.cpp:1304/1360/1015).  The knob defaults to 1.1; the
same expression is used when bytes enter `bytesInput` and when they
enter `bytesDurable`, which is all the invariants depend on. -/
def blockOverheadBytes (sz : ℕ) : ℕ :=
  sz + sz / 10

/-- `SERVER_KNOBS->VERSION_MESSAGES_ENTRY_BYTES_WITH_OVERHEAD`
(TLogServer.actor.cpp:1353/454): the per-deque-entry overhead constant.
Its exact value is irrelevant to every claim. -/
def versionMessagesEntryOverhead : ℕ := 24

/-- First-match association lookup in `tag_data`
(`LogData::getTagData`, TLogServer.actor.cpp:502-511, restricted to
the tags that exist). -/
def lookupTag : List (TagM × TagDataM) → TagM → Option TagDataM
  | [], _ => none
  | e :: rest, t => if e.1 = t then some e.2 else lookupTag rest t

/-- Replace the first entry for a tag (or create it at the end:
`LogData::createTagData`, TLogServer.actor.cpp:514-521, with
`allTags` empty so the `recoveredAt` adjustment of line 515 does not
fire). -/
def setTag : List (TagM × TagDataM) → TagM → TagDataM → List (TagM × TagDataM)
  | [], t, d => [(t, d)]
  | e :: rest, t, d => if e.1 = t then (t, d) :: rest else e :: setTag rest t d

/-- The tag filter and remap of `commitMessages`
(TLogServer.actor.cpp:1311-1332): satellite logs keep only txs and
log-router tags; other logs keep a tag when the log is
locality-special, shares the tag's locality, or the tag's locality is
negative; log-router tags are remapped modulo `logRouterTags` (dropped
when that is zero) and txs tags modulo `txsTags` (or to `txsTag`). -/
def tagRemap (s : LogDataState) (tag : TagM) : Option TagM :=
  if s.logLocality = tagLocalitySatellite ∧
      ¬ (tag.locality = tagLocalityTxs ∨ tag.locality = tagLocalityLogRouter ∨
        tag = txsTag) then
    none
  else if ¬ (s.logLocality = tagLocalitySatellite) ∧
      ¬ (s.logLocality = tagLocalitySpecial ∨ s.logLocality = tag.locality ∨
        tag.locality < 0) then
    none
  else if tag.locality = tagLocalityLogRouter then
    if s.logRouterTags = 0 then none
    else some ⟨tag.locality, tag.id % s.logRouterTags⟩
  else if tag.locality = tagLocalityTxs then
    if 0 < s.txsTags then some ⟨tag.locality, tag.id % s.txsTags⟩
    else some txsTag
  else some tag

/-- One tag of one message inside `commitMessages`
(TLogServer.actor.cpp:1333-1354): fetch or create the tag data, and if
`version >= tagData->popped` append the `(version, message)` entry to
its deque, counting one `VERSION_MESSAGES_ENTRY_BYTES_WITH_OVERHEAD`
of overhead.  The accumulator carries the tag map and the number of
appended entries. -/
def commitMessagesOneTag (version msgSize : ℕ)
    (acc : List (TagM × TagDataM) × ℕ) (t : TagM) :
    List (TagM × TagDataM) × ℕ :=
  let td := (lookupTag acc.1 t).getD ⟨0, []⟩
  if td.popped ≤ version then
    (setTag acc.1 t
      { td with versionMessages := td.versionMessages ++ [(version, msgSize)] },
      acc.2 + 1)
  else
    (setTag acc.1 t td, acc.2)

/-- Source `commitMessages` (TLogServer.actor.cpp:1270-1369): no-op on
an empty message list; otherwise appends every admitted `(message,
tag)` pair to the per-tag deques, stores the raw bytes in one fresh
message block (the source may split very large payloads over several
blocks; the accounted totals are identical and no claim observes the
split) and accounts `bytesInput`. -/
def commitMessages (s : LogDataState) (version : ℕ)
    (msgs : List TagsAndMessageM) : LogDataState :=
  if msgs = [] then s
  else
    let msgBytes := (msgs.map TagsAndMessageM.messageSize).sum
    let res := msgs.foldl
      (fun acc msg =>
        msg.tags.foldl
          (fun acc2 tag =>
            match tagRemap s tag with
            | none => acc2
            | some t => commitMessagesOneTag version msg.messageSize acc2 t)
          acc)
      (s.tagData, 0)
    { s with
        tagData := res.1
        messageBlocks := s.messageBlocks ++ [(version, msgBytes)]
        bytesInput := s.bytesInput + blockOverheadBytes msgBytes +
          versionMessagesEntryOverhead * res.2 }

/-- Source `tLogCommit` (TLogServer.actor.cpp:1905-1993), the state
effects after `wait(version.whenAtLeast(prevVersion))` succeeds on a
non-stopped log: always fold the request's `minKnownCommittedVersion`
in (line 1917); then, only when `version.get() == req.prevVersion`
(line 1943, the duplicate check), commit the messages and every
additional-message blob into memory (lines 1948-1955), advance
`knownCommittedVersion` (line 1957), push a queue entry carrying
`qe.messages = req.messages` (lines 1959-1965) and set
`version := req.version` (line 1973). -/
def tLogCommit (s : LogDataState) (req : TLogCommitRequestM) : LogDataState :=
  let s₀ := { s with
    minKnownCommittedVersion :=
      max s.minKnownCommittedVersion req.minKnownCommittedVersion }
  if s₀.version = req.prevVersion then
    let s₁ := commitMessages s₀ req.version req.messages
    let s₂ := (req.additionalMessages.getD []).foldl
      (fun st am => commitMessages st req.version am) s₁
    let s₃ := { s₂ with
      knownCommittedVersion :=
        max s₂.knownCommittedVersion req.knownCommittedVersion }
    { s₃ with
        persistentQueue := s₃.persistentQueue ++
          [⟨req.version, s₃.knownCommittedVersion, req.messages⟩]
        version := req.version }
  else s₀

/-- Source `doQueueCommit` (TLogServer.actor.cpp:1791-1839): `ver` and
`knownCommittedVersion` are read at actor entry (lines 1792-1794); after
the disk queue commit the actor sets `durableKnownCommittedVersion`
(line 1818) and `queueCommittedVersion.set(ver)` (line 1830). -/
def doQueueCommit (s : LogDataState) (ver kcvAtEntry : ℕ) : LogDataState :=
  { s with
      durableKnownCommittedVersion := kcvAtEntry
      queueCommittedVersion := ver }

/-- Source `TagData::eraseMessagesBefore` (TLogServer.actor.cpp:435-462):
pop deque entries while their version is `< before`, returning the new
tag data and the number of erased entries (each accounted as
`VERSION_MESSAGES_ENTRY_BYTES_WITH_OVERHEAD` towards
`bytesDurable`). -/
def eraseMessagesBefore (td : TagDataM) (before : ℕ) : TagDataM × ℕ :=
  ({ td with versionMessages :=
      td.versionMessages.dropWhile (fun e => e.1 < before) },
    (td.versionMessages.takeWhile (fun e => e.1 < before)).length)

/-- `eraseMessagesBefore` applied to every tag, with a per-tag bound. -/
def eraseAllTags (tagData : List (TagM × TagDataM)) (before : TagM → ℕ) :
    List (TagM × TagDataM) × ℕ :=
  (tagData.map (fun e => (e.1, (eraseMessagesBefore e.2 (before e.1)).1)),
    (tagData.map (fun e => (eraseMessagesBefore e.2 (before e.1)).2)).sum)

/-- Source `updatePersistentData` up to the kv-store commit
(TLogServer.actor.cpp:893-993): after the `ASSERT`s of lines 896-899,
each tag first erases messages below its own popped version (line 914),
the spill itself writes to the persistent kv store (not observed by any
claim), and line 991 sets `persistentDataVersion := newVersion`. -/
def updatePersistentDataWrite (s : LogDataState) (newVersion : ℕ) :
    LogDataState :=
  let er := eraseAllTags s.tagData
    (fun t => ((lookupTag s.tagData t).getD ⟨0, []⟩).popped)
  { s with
      tagData := er.1
      bytesDurable := s.bytesDurable + versionMessagesEntryOverhead * er.2
      persistentDataVersion := newVersion }

/-- Source `updatePersistentData` after the kv-store commit returns
(TLogServer.actor.cpp:996-1027): set `persistentDataDurableVersion`
(line 999), erase in-memory messages up to `newVersion+1` for every tag
(line 1004), and pop message blocks at versions `≤ newVersion`, adding
their accounted bytes to `bytesDurable` (lines 1014-1020); lines
1022-1027 then assert `bytesDurable ≤ bytesInput`. -/
def updatePersistentDataDurable (s : LogDataState) : LogDataState :=
  let nv := s.persistentDataVersion
  let er := eraseAllTags s.tagData (fun _ => nv + 1)
  let poppedBlocks := s.messageBlocks.takeWhile (fun b => b.1 ≤ nv)
  { s with
      persistentDataDurableVersion := nv
      tagData := er.1
      bytesDurable := s.bytesDurable + versionMessagesEntryOverhead * er.2 +
        (poppedBlocks.map (fun b => blockOverheadBytes b.2)).sum
      messageBlocks := s.messageBlocks.dropWhile (fun b => b.1 ≤ nv) }

/-- Source `tLogPopCore` (TLogServer.actor.cpp:1053-1101) for a
non-pseudo-locality tag with `ignorePopRequest` unset: create the tag
data at `popped = upTo` when missing (line 1082); otherwise, when
`upTo > popped`, advance `popped` (line 1084) and, if
`upTo > persistentDataDurableVersion`, erase in-memory messages below
`upTo` (lines 1096-1097).  No clamping against `version` occurs
anywhere in the function. -/
def tLogPopCore (s : LogDataState) (tag : TagM) (upTo : ℕ) : LogDataState :=
  match lookupTag s.tagData tag with
  | none => { s with tagData := setTag s.tagData tag ⟨upTo, []⟩ }
  | some td =>
    if td.popped < upTo then
      let td₁ := { td with popped := upTo }
      if s.persistentDataDurableVersion < upTo then
        let er := eraseMessagesBefore td₁ upTo
        { s with
            tagData := setTag s.tagData tag er.1
            bytesDurable := s.bytesDurable + versionMessagesEntryOverhead * er.2 }
      else
        { s with tagData := setTag s.tagData tag td₁ }
    else s

/-- A freshly initialised TLog instance. -/
def initialLogDataState (locality : ℤ) (logRouterTags txsTags : ℕ) :
    LogDataState :=
  { version := 0
    queueCommittedVersion := 0
    persistentDataVersion := 0
    persistentDataDurableVersion := 0
    knownCommittedVersion := 0
    minKnownCommittedVersion := 0
    durableKnownCommittedVersion := 0
    bytesInput := 0
    bytesDurable := 0
    messageBlocks := []
    tagData := []
    persistentQueue := []
    logLocality := locality
    logRouterTags := logRouterTags
    txsTags := txsTags }

/-- One scheduling-atomic operation of the TLog, with the preconditions
the source establishes before the state change runs:

* `commit`: `tLogCommit` runs after `wait(version.whenAtLeast(prevVersion))`
  on a non-stopped log; `prevVersion < version` holds for every request
  because the master hands out strictly increasing commit versions
  (spec §6, `get_commit_version` is strictly monotone with
  `prev_version < version`).
* `queueCommit`: `doQueueCommit` reads `ver = version.get()` at entry,
  asserts `ver > queueCommittedVersion.get()` (line 1816) before
  setting it, and `version` only grows, so `ver ≤ version` still holds;
  `knownCommittedVersion` likewise only grows.
* `updateWrite`: the `ASSERT`s of TLogServer.actor.cpp:896-899.
* `updateDurable`: the continuation after the kv commit.
* `pop`: `tLogPopCore` for an arbitrary tag and target version. -/
inductive TLogStep : LogDataState → LogDataState → Prop
  | commit (s : LogDataState) (req : TLogCommitRequestM)
      (hreq : req.prevVersion < req.version) :
      TLogStep s (tLogCommit s req)
  | queueCommit (s : LogDataState) (ver kcvAtEntry : ℕ)
      (hv₁ : s.queueCommittedVersion < ver) (hv₂ : ver ≤ s.version)
      (hk : kcvAtEntry ≤ s.knownCommittedVersion) :
      TLogStep s (doQueueCommit s ver kcvAtEntry)
  | updateWrite (s : LogDataState) (newVersion : ℕ)
      (h₁ : newVersion ≤ s.version)
      (h₂ : newVersion ≤ s.queueCommittedVersion)
      (h₃ : s.persistentDataVersion < newVersion)
      (h₄ : s.persistentDataVersion = s.persistentDataDurableVersion) :
      TLogStep s (updatePersistentDataWrite s newVersion)
  | updateDurable (s : LogDataState) :
      TLogStep s (updatePersistentDataDurable s)
  | pop (s : LogDataState) (tag : TagM) (upTo : ℕ) :
      TLogStep s (tLogPopCore s tag upTo)

/-- The version ordering the claims assert:
`persistent_data_durable_version ≤ persistent_data_version ≤
queue_committed_version ≤ version`. -/
def VersionOrderInv (s : LogDataState) : Prop :=
  s.persistentDataDurableVersion ≤ s.persistentDataVersion ∧
  s.persistentDataVersion ≤ s.queueCommittedVersion ∧
  s.queueCommittedVersion ≤ s.version

/-- Total number of entries across all per-tag deques. -/
def totalEntries (tagData : List (TagM × TagDataM)) : ℕ :=
  (tagData.map (fun e => e.2.versionMessages.length)).sum

/-- Conservation form of the byte accounting: everything that entered
`bytesInput` is either already mirrored in `bytesDurable` or still
held by a message block or a deque entry. -/
def BytesConservation (s : LogDataState) : Prop :=
  s.bytesInput = s.bytesDurable +
    (s.messageBlocks.map (fun b => blockOverheadBytes b.2)).sum +
    versionMessagesEntryOverhead * totalEntries s.tagData

/-- The inductive TLog invariant. -/
def TLogInv (s : LogDataState) : Prop :=
  VersionOrderInv s ∧ BytesConservation s

theorem totalEntries_cons (e : TagM × TagDataM) (l : List (TagM × TagDataM)) :
    totalEntries (e :: l) = e.2.versionMessages.length + totalEntries l := by
  simp [totalEntries]

theorem totalEntries_setTag_absent (td : List (TagM × TagDataM)) (t : TagM)
    (d : TagDataM) (h : lookupTag td t = none) :
    totalEntries (setTag td t d) = totalEntries td + d.versionMessages.length := by
  induction td with
  | nil => simp [setTag, totalEntries]
  | cons e rest ih =>
    rw [lookupTag] at h
    by_cases he : e.1 = t
    · rw [if_pos he] at h
      cases h
    · rw [if_neg he] at h
      rw [setTag, if_neg he, totalEntries_cons, totalEntries_cons, ih h]
      omega

theorem totalEntries_setTag_present (td : List (TagM × TagDataM)) (t : TagM)
    (d o : TagDataM) (h : lookupTag td t = some o) :
    totalEntries (setTag td t d) + o.versionMessages.length =
      totalEntries td + d.versionMessages.length := by
  induction td with
  | nil => simp [lookupTag] at h
  | cons e rest ih =>
    rw [lookupTag] at h
    by_cases he : e.1 = t
    · rw [if_pos he] at h
      injection h with h
      subst h
      rw [setTag, if_pos he, totalEntries_cons, totalEntries_cons]
      dsimp only
      omega
    · rw [if_neg he] at h
      rw [setTag, if_neg he, totalEntries_cons, totalEntries_cons]
      have := ih h
      omega

theorem commitMessagesOneTag_entries (v sz : ℕ)
    (acc : List (TagM × TagDataM) × ℕ) (t : TagM) :
    totalEntries (commitMessagesOneTag v sz acc t).1 + acc.2 =
      totalEntries acc.1 + (commitMessagesOneTag v sz acc t).2 := by
  unfold commitMessagesOneTag
  cases h : lookupTag acc.1 t with
  | none =>
    simp only [h, Option.getD_none]
    rw [if_pos (Nat.zero_le v)]
    simp only
    rw [totalEntries_setTag_absent acc.1 t _ h]
    simp
    omega
  | some o =>
    simp only [h, Option.getD_some]
    by_cases hp : o.popped ≤ v
    · rw [if_pos hp]
      simp only
      have := totalEntries_setTag_present acc.1 t
        { o with versionMessages := o.versionMessages ++ [(v, sz)] } o h
      simp only [List.length_append, List.length_singleton] at this
      omega
    · rw [if_neg hp]
      simp only
      have := totalEntries_setTag_present acc.1 t o o h
      omega

theorem foldl_entries_inv {α : Type}
    (f : List (TagM × TagDataM) × ℕ → α → List (TagM × TagDataM) × ℕ)
    (hf : ∀ acc x, totalEntries (f acc x).1 + acc.2 =
      totalEntries acc.1 + (f acc x).2) :
    ∀ (l : List α) (acc : List (TagM × TagDataM) × ℕ),
      totalEntries (l.foldl f acc).1 + acc.2 =
        totalEntries acc.1 + (l.foldl f acc).2 := by
  intro l
  induction l with
  | nil => intro acc; rfl
  | cons x rest ih =>
    intro acc
    rw [List.foldl_cons]
    have h1 := ih (f acc x)
    have h2 := hf acc x
    omega

theorem commitMessages_entries_fold (s : LogDataState) (v : ℕ)
    (msgs : List TagsAndMessageM)
    (acc : List (TagM × TagDataM) × ℕ) :
    totalEntries ((msgs.foldl
        (fun acc msg =>
          msg.tags.foldl
            (fun acc2 tag =>
              match tagRemap s tag with
              | none => acc2
              | some t => commitMessagesOneTag v msg.messageSize acc2 t)
            acc)
        acc).1) + acc.2 =
      totalEntries acc.1 +
        (msgs.foldl
          (fun acc msg =>
            msg.tags.foldl
              (fun acc2 tag =>
                match tagRemap s tag with
                | none => acc2
                | some t => commitMessagesOneTag v msg.messageSize acc2 t)
              acc)
          acc).2 := by
  apply foldl_entries_inv
  intro acc msg
  apply foldl_entries_inv
  intro acc2 tag
  cases h : tagRemap s tag with
  | none => simp
  | some t => exact commitMessagesOneTag_entries v msg.messageSize acc2 t

/-- Fields of the state `commitMessages` never touches. -/
theorem commitMessages_preserves (s : LogDataState) (v : ℕ)
    (msgs : List TagsAndMessageM) :
    (commitMessages s v msgs).version = s.version ∧
    (commitMessages s v msgs).queueCommittedVersion = s.queueCommittedVersion ∧
    (commitMessages s v msgs).persistentDataVersion = s.persistentDataVersion ∧
    (commitMessages s v msgs).persistentDataDurableVersion =
      s.persistentDataDurableVersion ∧
    (commitMessages s v msgs).bytesDurable = s.bytesDurable ∧
    (commitMessages s v msgs).persistentQueue = s.persistentQueue ∧
    (commitMessages s v msgs).knownCommittedVersion = s.knownCommittedVersion ∧
    (commitMessages s v msgs).minKnownCommittedVersion =
      s.minKnownCommittedVersion ∧
    (commitMessages s v msgs).durableKnownCommittedVersion =
      s.durableKnownCommittedVersion := by
  unfold commitMessages
  split <;> exact ⟨rfl, rfl, rfl, rfl, rfl, rfl, rfl, rfl, rfl⟩

theorem commitMessages_conservation (s : LogDataState) (v : ℕ)
    (msgs : List TagsAndMessageM) (h : BytesConservation s) :
    BytesConservation (commitMessages s v msgs) := by
  unfold commitMessages
  split
  · exact h
  · unfold BytesConservation at *
    simp only [List.map_append, List.sum_append, List.map_cons, List.sum_cons,
      List.map_nil, List.sum_nil]
    have hent := commitMessages_entries_fold s v msgs (s.tagData, 0)
    simp only at hent
    -- the new total entry count equals the old plus the appended counter
    rw [show totalEntries ((msgs.foldl
        (fun acc msg =>
          msg.tags.foldl
            (fun acc2 tag =>
              match tagRemap s tag with
              | none => acc2
              | some t => commitMessagesOneTag v msg.messageSize acc2 t)
            acc)
        (s.tagData, 0)).1) = totalEntries s.tagData +
        (msgs.foldl
          (fun acc msg =>
            msg.tags.foldl
              (fun acc2 tag =>
                match tagRemap s tag with
                | none => acc2
                | some t => commitMessagesOneTag v msg.messageSize acc2 t)
              acc)
          (s.tagData, 0)).2 by omega]
    rw [h]
    ring

/-- The fold of `commitMessages` over the additional message blobs of a
merged split request preserves the untouched fields and the byte
conservation. -/
theorem commitMessages_fold_preserves (v : ℕ)
    (ams : List (List TagsAndMessageM)) :
    ∀ s : LogDataState,
      ((ams.foldl (fun st am => commitMessages st v am) s).version = s.version ∧
       (ams.foldl (fun st am => commitMessages st v am) s).queueCommittedVersion =
         s.queueCommittedVersion ∧
       (ams.foldl (fun st am => commitMessages st v am) s).persistentDataVersion =
         s.persistentDataVersion ∧
       (ams.foldl (fun st am => commitMessages st v am)
           s).persistentDataDurableVersion = s.persistentDataDurableVersion ∧
       (ams.foldl (fun st am => commitMessages st v am) s).bytesDurable =
         s.bytesDurable ∧
       (ams.foldl (fun st am => commitMessages st v am) s).persistentQueue =
         s.persistentQueue) ∧
      (BytesConservation s →
        BytesConservation (ams.foldl (fun st am => commitMessages st v am) s)) := by
  induction ams with
  | nil => intro s; exact ⟨⟨rfl, rfl, rfl, rfl, rfl, rfl⟩, fun h => h⟩
  | cons am rest ih =>
    intro s
    rw [List.foldl_cons]
    obtain ⟨⟨i1, i2, i3, i4, i5, i6⟩, icons⟩ := ih (commitMessages s v am)
    obtain ⟨p1, p2, p3, p4, p5, p6, _, _, _⟩ := commitMessages_preserves s v am
    refine ⟨⟨?_, ?_, ?_, ?_, ?_, ?_⟩, ?_⟩
    · rw [i1, p1]
    · rw [i2, p2]
    · rw [i3, p3]
    · rw [i4, p4]
    · rw [i5, p5]
    · rw [i6, p6]
    · intro h
      exact icons (commitMessages_conservation s v am h)

theorem eraseMessagesBefore_split (td : TagDataM) (before : ℕ) :
    (eraseMessagesBefore td before).1.versionMessages.length +
      (eraseMessagesBefore td before).2 = td.versionMessages.length := by
  unfold eraseMessagesBefore
  simp only
  rw [Nat.add_comm, ← List.length_append, List.takeWhile_append_dropWhile]

theorem eraseAllTags_entries (tagData : List (TagM × TagDataM))
    (before : TagM → ℕ) :
    totalEntries (eraseAllTags tagData before).1 +
      (eraseAllTags tagData before).2 = totalEntries tagData := by
  induction tagData with
  | nil => rfl
  | cons e rest ih =>
    unfold eraseAllTags at *
    simp only [List.map_cons, List.sum_cons, totalEntries] at *
    have hsplit := eraseMessagesBefore_split e.2 (before e.1)
    omega

/-- Unfolding of `tLogCommit` on a duplicate (already-seen) request:
only `minKnownCommittedVersion` moves. -/
theorem tLogCommit_ne (s : LogDataState) (req : TLogCommitRequestM)
    (hv : s.version ≠ req.prevVersion) :
    tLogCommit s req = { s with
      minKnownCommittedVersion :=
        max s.minKnownCommittedVersion req.minKnownCommittedVersion } := by
  simp only [tLogCommit]
  rw [if_neg hv]

/-- Unfolding of `tLogCommit` on a fresh request
(`version.get() == req.prevVersion`). -/
theorem tLogCommit_eqv (s : LogDataState) (req : TLogCommitRequestM)
    (hv : s.version = req.prevVersion) :
    tLogCommit s req =
      (fun s₂ => { s₂ with
        knownCommittedVersion := max s₂.knownCommittedVersion req.knownCommittedVersion
        persistentQueue := s₂.persistentQueue ++
          [⟨req.version, max s₂.knownCommittedVersion req.knownCommittedVersion,
            req.messages⟩]
        version := req.version })
      ((req.additionalMessages.getD []).foldl
        (fun st am => commitMessages st req.version am)
        (commitMessages { s with
            minKnownCommittedVersion :=
              max s.minKnownCommittedVersion req.minKnownCommittedVersion }
          req.version req.messages)) := by
  simp only [tLogCommit]
  rw [if_pos hv]

theorem bytesConservation_of_fields {s t : LogDataState}
    (h1 : t.bytesInput = s.bytesInput) (h2 : t.bytesDurable = s.bytesDurable)
    (h3 : t.messageBlocks = s.messageBlocks) (h4 : t.tagData = s.tagData)
    (h : BytesConservation s) : BytesConservation t := by
  unfold BytesConservation at *
  rw [h1, h2, h3, h4]
  exact h

theorem tLogCommit_preserves_inv (s : LogDataState)
    (req : TLogCommitRequestM) (hreq : req.prevVersion < req.version)
    (h : TLogInv s) : TLogInv (tLogCommit s req) := by
  obtain ⟨⟨ho1, ho2, ho3⟩, hc⟩ := h
  by_cases hv : s.version = req.prevVersion
  · rw [tLogCommit_eqv s req hv]
    obtain ⟨p1, p2, p3, p4, p5, p6, p7, p8, p9⟩ :=
      commitMessages_preserves
        { s with
          minKnownCommittedVersion :=
            max s.minKnownCommittedVersion req.minKnownCommittedVersion }
        req.version req.messages
    obtain ⟨⟨f1, f2, f3, f4, f5, f6⟩, fcons⟩ :=
      commitMessages_fold_preserves req.version (req.additionalMessages.getD [])
        (commitMessages
          { s with
            minKnownCommittedVersion :=
              max s.minKnownCommittedVersion req.minKnownCommittedVersion }
          req.version req.messages)
    constructor
    · refine ⟨?_, ?_, ?_⟩
      · show ((req.additionalMessages.getD []).foldl
            (fun st am => commitMessages st req.version am)
            (commitMessages
              { s with
                minKnownCommittedVersion :=
                  max s.minKnownCommittedVersion req.minKnownCommittedVersion }
              req.version req.messages)).persistentDataDurableVersion ≤
          ((req.additionalMessages.getD []).foldl
            (fun st am => commitMessages st req.version am)
            (commitMessages
              { s with
                minKnownCommittedVersion :=
                  max s.minKnownCommittedVersion req.minKnownCommittedVersion }
              req.version req.messages)).persistentDataVersion
        rw [f4, f3, p4, p3]
        exact ho1
      · show ((req.additionalMessages.getD []).foldl
            (fun st am => commitMessages st req.version am)
            (commitMessages
              { s with
                minKnownCommittedVersion :=
                  max s.minKnownCommittedVersion req.minKnownCommittedVersion }
              req.version req.messages)).persistentDataVersion ≤
          ((req.additionalMessages.getD []).foldl
            (fun st am => commitMessages st req.version am)
            (commitMessages
              { s with
                minKnownCommittedVersion :=
                  max s.minKnownCommittedVersion req.minKnownCommittedVersion }
              req.version req.messages)).queueCommittedVersion
        rw [f3, f2, p3, p2]
        exact ho2
      · show ((req.additionalMessages.getD []).foldl
            (fun st am => commitMessages st req.version am)
            (commitMessages
              { s with
                minKnownCommittedVersion :=
                  max s.minKnownCommittedVersion req.minKnownCommittedVersion }
              req.version req.messages)).queueCommittedVersion ≤ req.version
        rw [f2, p2]
        show s.queueCommittedVersion ≤ req.version
        omega
    · have hcons : BytesConservation
          ((req.additionalMessages.getD []).foldl
            (fun st am => commitMessages st req.version am)
            (commitMessages
              { s with
                minKnownCommittedVersion :=
                  max s.minKnownCommittedVersion req.minKnownCommittedVersion }
              req.version req.messages)) :=
        fcons (commitMessages_conservation _ req.version req.messages hc)
      exact bytesConservation_of_fields rfl rfl rfl rfl hcons
  · rw [tLogCommit_ne s req hv]
    exact ⟨⟨ho1, ho2, ho3⟩, hc⟩

theorem doQueueCommit_preserves_inv (s : LogDataState) (ver kcv : ℕ)
    (hv₁ : s.queueCommittedVersion < ver) (hv₂ : ver ≤ s.version)
    (h : TLogInv s) : TLogInv (doQueueCommit s ver kcv) := by
  obtain ⟨⟨ho1, ho2, ho3⟩, hc⟩ := h
  refine ⟨⟨ho1, by show s.persistentDataVersion ≤ ver; omega, hv₂⟩, ?_⟩
  exact hc

theorem updatePersistentDataWrite_preserves_inv (s : LogDataState)
    (newVersion : ℕ) (h₁ : newVersion ≤ s.version)
    (h₂ : newVersion ≤ s.queueCommittedVersion)
    (h₃ : s.persistentDataVersion < newVersion)
    (h₄ : s.persistentDataVersion = s.persistentDataDurableVersion)
    (h : TLogInv s) : TLogInv (updatePersistentDataWrite s newVersion) := by
  obtain ⟨⟨ho1, ho2, ho3⟩, hc⟩ := h
  constructor
  · exact ⟨by show s.persistentDataDurableVersion ≤ newVersion; omega, h₂, ho3⟩
  · show s.bytesInput = s.bytesDurable + versionMessagesEntryOverhead *
      (eraseAllTags s.tagData
        (fun t => ((lookupTag s.tagData t).getD ⟨0, []⟩).popped)).2 +
      (s.messageBlocks.map (fun b => blockOverheadBytes b.2)).sum +
      versionMessagesEntryOverhead * totalEntries
        (eraseAllTags s.tagData
          (fun t => ((lookupTag s.tagData t).getD ⟨0, []⟩).popped)).1
    have := eraseAllTags_entries s.tagData
      (fun t => ((lookupTag s.tagData t).getD ⟨0, []⟩).popped)
    unfold BytesConservation at hc
    rw [hc]
    have hexp : versionMessagesEntryOverhead * totalEntries s.tagData =
        versionMessagesEntryOverhead *
          (eraseAllTags s.tagData
            (fun t => ((lookupTag s.tagData t).getD ⟨0, []⟩).popped)).2 +
        versionMessagesEntryOverhead *
          totalEntries (eraseAllTags s.tagData
            (fun t => ((lookupTag s.tagData t).getD ⟨0, []⟩).popped)).1 := by
      rw [← Nat.mul_add]
      congr 1
      omega
    omega

theorem sum_map_takeWhile_dropWhile {α : Type} (f : α → ℕ) (p : α → Bool)
    (l : List α) :
    ((l.takeWhile p).map f).sum + ((l.dropWhile p).map f).sum =
      (l.map f).sum := by
  rw [← List.sum_append, ← List.map_append, List.takeWhile_append_dropWhile]

theorem updatePersistentDataDurable_preserves_inv (s : LogDataState)
    (h : TLogInv s) : TLogInv (updatePersistentDataDurable s) := by
  obtain ⟨⟨ho1, ho2, ho3⟩, hc⟩ := h
  constructor
  · exact ⟨le_refl _, ho2, ho3⟩
  · show s.bytesInput = s.bytesDurable + versionMessagesEntryOverhead *
      (eraseAllTags s.tagData (fun _ => s.persistentDataVersion + 1)).2 +
      (((s.messageBlocks.takeWhile fun b => b.1 ≤ s.persistentDataVersion).map
        (fun b => blockOverheadBytes b.2)).sum) +
      (((s.messageBlocks.dropWhile fun b => b.1 ≤ s.persistentDataVersion).map
        (fun b => blockOverheadBytes b.2)).sum) +
      versionMessagesEntryOverhead * totalEntries
        (eraseAllTags s.tagData (fun _ => s.persistentDataVersion + 1)).1
    have hent := eraseAllTags_entries s.tagData
      (fun _ => s.persistentDataVersion + 1)
    have hblk := sum_map_takeWhile_dropWhile
      (fun b : ℕ × ℕ => blockOverheadBytes b.2)
      (fun b => b.1 ≤ s.persistentDataVersion) s.messageBlocks
    unfold BytesConservation at hc
    rw [hc]
    have hexp : versionMessagesEntryOverhead * totalEntries s.tagData =
        versionMessagesEntryOverhead *
          (eraseAllTags s.tagData (fun _ => s.persistentDataVersion + 1)).2 +
        versionMessagesEntryOverhead *
          totalEntries (eraseAllTags s.tagData
            (fun _ => s.persistentDataVersion + 1)).1 := by
      rw [← Nat.mul_add]
      congr 1
      omega
    omega

theorem tLogPopCore_preserves_inv (s : LogDataState) (tag : TagM)
    (upTo : ℕ) (h : TLogInv s) : TLogInv (tLogPopCore s tag upTo) := by
  obtain ⟨horder, hc⟩ := h
  unfold tLogPopCore
  cases hlk : lookupTag s.tagData tag with
  | none =>
    refine ⟨horder, ?_⟩
    show s.bytesInput = s.bytesDurable +
      (s.messageBlocks.map (fun b => blockOverheadBytes b.2)).sum +
      versionMessagesEntryOverhead *
        totalEntries (setTag s.tagData tag ⟨upTo, []⟩)
    rw [totalEntries_setTag_absent s.tagData tag _ hlk]
    simpa using hc
  | some td =>
    dsimp only
    by_cases hpop : td.popped < upTo
    · rw [if_pos hpop]
      by_cases hdur : s.persistentDataDurableVersion < upTo
      · rw [if_pos hdur]
        refine ⟨horder, ?_⟩
        show s.bytesInput = s.bytesDurable + versionMessagesEntryOverhead *
            (eraseMessagesBefore { td with popped := upTo } upTo).2 +
          (s.messageBlocks.map (fun b => blockOverheadBytes b.2)).sum +
          versionMessagesEntryOverhead * totalEntries
            (setTag s.tagData tag (eraseMessagesBefore { td with popped := upTo } upTo).1)
        have hset := totalEntries_setTag_present s.tagData tag
          (eraseMessagesBefore { td with popped := upTo } upTo).1 td hlk
        have hsplit := eraseMessagesBefore_split { td with popped := upTo } upTo
        unfold BytesConservation at hc
        have htd : ({ td with popped := upTo } : TagDataM).versionMessages.length =
            td.versionMessages.length := rfl
        -- expand the multiplication over the erased/kept split
        have hmul : versionMessagesEntryOverhead * totalEntries s.tagData +
              versionMessagesEntryOverhead *
                (eraseMessagesBefore { td with popped := upTo } upTo).1.versionMessages.length =
            versionMessagesEntryOverhead *
              (eraseMessagesBefore { td with popped := upTo } upTo).2 +
            versionMessagesEntryOverhead * totalEntries
              (setTag s.tagData tag
                (eraseMessagesBefore { td with popped := upTo } upTo).1) +
            versionMessagesEntryOverhead *
              (eraseMessagesBefore { td with popped := upTo } upTo).1.versionMessages.length := by
          rw [← Nat.mul_add, ← Nat.mul_add, ← Nat.mul_add]
          congr 1
          omega
        omega
      · rw [if_neg hdur]
        refine ⟨horder, ?_⟩
        show s.bytesInput = s.bytesDurable +
          (s.messageBlocks.map (fun b => blockOverheadBytes b.2)).sum +
          versionMessagesEntryOverhead *
            totalEntries (setTag s.tagData tag { td with popped := upTo })
        have hset := totalEntries_setTag_present s.tagData tag
          { td with popped := upTo } td hlk
        have htd : ({ td with popped := upTo } : TagDataM).versionMessages.length =
            td.versionMessages.length := rfl
        unfold BytesConservation at hc
        have hmul : versionMessagesEntryOverhead * totalEntries s.tagData =
            versionMessagesEntryOverhead *
              totalEntries (setTag s.tagData tag { td with popped := upTo }) := by
          congr 1
          omega
        omega
    · rw [if_neg hpop]
      exact ⟨horder, hc⟩

/-- Every TLog operation preserves the invariant. -/
theorem tLogStep_preserves_inv {s s' : LogDataState}
    (hstep : TLogStep s s') (h : TLogInv s) : TLogInv s' := by
  cases hstep with
  | commit req hreq => exact tLogCommit_preserves_inv s req hreq h
  | queueCommit ver kcv hv₁ hv₂ hk =>
    exact doQueueCommit_preserves_inv s ver kcv hv₁ hv₂ h
  | updateWrite newVersion h₁ h₂ h₃ h₄ =>
    exact updatePersistentDataWrite_preserves_inv s newVersion h₁ h₂ h₃ h₄ h
  | updateDurable => exact updatePersistentDataDurable_preserves_inv s h
  | pop tag upTo => exact tLogPopCore_preserves_inv s tag upTo h

/-- The initial state satisfies the invariant. -/
theorem initial_tLogInv (locality : ℤ) (logRouterTags txsTags : ℕ) :
    TLogInv (initialLogDataState locality logRouterTags txsTags) :=
  ⟨⟨le_refl 0, le_refl 0, le_refl 0⟩, rfl⟩

/-- C3: on every run of the TLog (every state reachable from a freshly
initialised instance through commits, queue commits, spills and pops),
`bytes_durable ≤ bytes_input` and `persistent_data_durable_version ≤
persistent_data_version ≤ queue_committed_version ≤ version`; each
operation preserves the ordering. -/
theorem c3_tlog_invariants (locality : ℤ) (logRouterTags txsTags : ℕ)
    (s : LogDataState)
    (hreach : Relation.ReflTransGen TLogStep
      (initialLogDataState locality logRouterTags txsTags) s) :
    s.bytesDurable ≤ s.bytesInput ∧
    s.persistentDataDurableVersion ≤ s.persistentDataVersion ∧
    s.persistentDataVersion ≤ s.queueCommittedVersion ∧
    s.queueCommittedVersion ≤ s.version := by
  have hinv : TLogInv s := by
    induction hreach with
    | refl => exact initial_tLogInv locality logRouterTags txsTags
    | tail _ hstep ih => exact tLogStep_preserves_inv hstep ih
  obtain ⟨⟨ho1, ho2, ho3⟩, hc⟩ := hinv
  refine ⟨?_, ho1, ho2, ho3⟩
  rw [hc]
  omega

/-- A concrete commit request used by the witnesses: ten message bytes
for the normal storage tag `(0, 0)` at version 5. -/
def sampleCommitRequest : TLogCommitRequestM :=
  { prevVersion := 0
    version := 5
    knownCommittedVersion := 0
    minKnownCommittedVersion := 0
    messages := [⟨[⟨0, 0⟩], 10⟩]
    additionalMessages := none
    splitTransaction := none }

/-- The state of a locality-special TLog after committing
`sampleCommitRequest` from a fresh start: `version = 5` and tag
`(0, 0)` holds one message at version 5. -/
def popDemoState : LogDataState :=
  tLogCommit (initialLogDataState tagLocalitySpecial 0 0) sampleCommitRequest

/-- Witness for C3 on the concrete one-commit run. -/
theorem c3_tlog_invariants_witness :
    popDemoState.bytesDurable ≤ popDemoState.bytesInput ∧
    popDemoState.persistentDataDurableVersion ≤
      popDemoState.persistentDataVersion ∧
    popDemoState.persistentDataVersion ≤ popDemoState.queueCommittedVersion ∧
    popDemoState.queueCommittedVersion ≤ popDemoState.version :=
  c3_tlog_invariants tagLocalitySpecial 0 0 popDemoState
    (Relation.ReflTransGen.single
      (TLogStep.commit (initialLogDataState tagLocalitySpecial 0 0)
        sampleCommitRequest (by decide)))

/-- C4: `tLogCommit` is idempotent for replays.  When the request's
`prevVersion` is strictly below the TLog's current version (a replayed,
already-committed commit), the per-tag deques, the message blocks, the
byte accounting and the persistent queue are all unchanged (only the
reply is sent); and a queue entry is appended exactly when the current
version equals the request's `prevVersion`. -/
theorem c4_duplicate_commit_is_noop (s : LogDataState)
    (req : TLogCommitRequestM) :
    (req.prevVersion < s.version →
      (tLogCommit s req).tagData = s.tagData ∧
      (tLogCommit s req).messageBlocks = s.messageBlocks ∧
      (tLogCommit s req).bytesInput = s.bytesInput ∧
      (tLogCommit s req).bytesDurable = s.bytesDurable ∧
      (tLogCommit s req).persistentQueue = s.persistentQueue) ∧
    ((tLogCommit s req).persistentQueue ≠ s.persistentQueue ↔
      s.version = req.prevVersion) := by
  constructor
  · intro hlt
    have hv : s.version ≠ req.prevVersion := by omega
    rw [tLogCommit_ne s req hv]
    exact ⟨rfl, rfl, rfl, rfl, rfl⟩
  · by_cases hv : s.version = req.prevVersion
    · rw [tLogCommit_eqv s req hv]
      constructor
      · intro _
        exact hv
      · intro _
        obtain ⟨_, _, _, _, _, p6, _, _, _⟩ :=
          commitMessages_preserves
            { s with
              minKnownCommittedVersion :=
                max s.minKnownCommittedVersion req.minKnownCommittedVersion }
            req.version req.messages
        obtain ⟨⟨_, _, _, _, _, f6⟩, _⟩ :=
          commitMessages_fold_preserves req.version
            (req.additionalMessages.getD [])
            (commitMessages
              { s with
                minKnownCommittedVersion :=
                  max s.minKnownCommittedVersion req.minKnownCommittedVersion }
              req.version req.messages)
        show _ ++ _ ≠ s.persistentQueue
        rw [f6, p6]
        intro hcontra
        have := congrArg List.length hcontra
        simp at this
    · rw [tLogCommit_ne s req hv]
      constructor
      · intro hne
        exact absurd rfl hne
      · intro hcontra
        exact absurd hcontra hv

/-- Witness for C4: replaying a request with `prevVersion = 3` against
the version-5 demo state changes nothing. -/
theorem c4_duplicate_commit_is_noop_witness :
    ((tLogCommit popDemoState
        ⟨3, 4, 0, 0, [⟨[⟨0, 0⟩], 10⟩], none, none⟩).tagData =
      popDemoState.tagData ∧
     (tLogCommit popDemoState
        ⟨3, 4, 0, 0, [⟨[⟨0, 0⟩], 10⟩], none, none⟩).messageBlocks =
      popDemoState.messageBlocks ∧
     (tLogCommit popDemoState
        ⟨3, 4, 0, 0, [⟨[⟨0, 0⟩], 10⟩], none, none⟩).bytesInput =
      popDemoState.bytesInput ∧
     (tLogCommit popDemoState
        ⟨3, 4, 0, 0, [⟨[⟨0, 0⟩], 10⟩], none, none⟩).bytesDurable =
      popDemoState.bytesDurable ∧
     (tLogCommit popDemoState
        ⟨3, 4, 0, 0, [⟨[⟨0, 0⟩], 10⟩], none, none⟩).persistentQueue =
      popDemoState.persistentQueue) ∧
    ((tLogCommit popDemoState
        ⟨3, 4, 0, 0, [⟨[⟨0, 0⟩], 10⟩], none, none⟩).persistentQueue ≠
        popDemoState.persistentQueue ↔
      popDemoState.version = (3 : ℕ)) :=
  ⟨(c4_duplicate_commit_is_noop popDemoState
      ⟨3, 4, 0, 0, [⟨[⟨0, 0⟩], 10⟩], none, none⟩).1 (by decide),
   (c4_duplicate_commit_is_noop popDemoState
      ⟨3, 4, 0, 0, [⟨[⟨0, 0⟩], 10⟩], none, none⟩).2⟩

theorem commitMessages_blocks_len (s : LogDataState) (v : ℕ)
    (msgs : List TagsAndMessageM) (hm : msgs ≠ []) :
    (commitMessages s v msgs).messageBlocks.length =
      s.messageBlocks.length + 1 := by
  unfold commitMessages
  rw [if_neg hm]
  simp

theorem fold_commitMessages_blocks_len (v : ℕ)
    (ams : List (List TagsAndMessageM)) (hams : ∀ am ∈ ams, am ≠ []) :
    ∀ s : LogDataState,
      ((ams.foldl (fun st am => commitMessages st v am) s).messageBlocks.length =
        s.messageBlocks.length + ams.length) := by
  induction ams with
  | nil => intro s; rfl
  | cons am rest ih =>
    intro s
    rw [List.foldl_cons]
    have h1 := ih (fun a ha => hams a (List.mem_cons_of_mem am ha))
      (commitMessages s v am)
    rw [h1, commitMessages_blocks_len s v am
      (hams am (List.mem_cons_self am rest))]
    simp only [List.length_cons]
    omega

/-- C10: committing a merged split transaction pushes a queue entry
whose `messages` field is exactly the first part's `req.messages`; the
`additionalMessages` merged from the other parts are indexed in memory
(each lands in its own message block) but are excluded from the durable
queue record. -/
theorem c10_merged_commit_queue_entry (s : LogDataState)
    (req : TLogCommitRequestM) (ams : List (List TagsAndMessageM))
    (hv : s.version = req.prevVersion)
    (hadd : req.additionalMessages = some ams)
    (hm : req.messages ≠ []) (hams : ∀ am ∈ ams, am ≠ []) :
    (∃ kcv, (tLogCommit s req).persistentQueue =
      s.persistentQueue ++ [⟨req.version, kcv, req.messages⟩]) ∧
    (tLogCommit s req).messageBlocks.length =
      s.messageBlocks.length + 1 + ams.length := by
  rw [tLogCommit_eqv s req hv]
  obtain ⟨_, _, _, _, _, p6, _, _, _⟩ :=
    commitMessages_preserves
      { s with
        minKnownCommittedVersion :=
          max s.minKnownCommittedVersion req.minKnownCommittedVersion }
      req.version req.messages
  obtain ⟨⟨_, _, _, _, _, f6⟩, _⟩ :=
    commitMessages_fold_preserves req.version (req.additionalMessages.getD [])
      (commitMessages
        { s with
          minKnownCommittedVersion :=
            max s.minKnownCommittedVersion req.minKnownCommittedVersion }
        req.version req.messages)
  constructor
  · refine ⟨max ((req.additionalMessages.getD []).foldl
        (fun st am => commitMessages st req.version am)
        (commitMessages
          { s with
            minKnownCommittedVersion :=
              max s.minKnownCommittedVersion req.minKnownCommittedVersion }
          req.version req.messages)).knownCommittedVersion
        req.knownCommittedVersion, ?_⟩
    show ((req.additionalMessages.getD []).foldl
        (fun st am => commitMessages st req.version am)
        (commitMessages
          { s with
            minKnownCommittedVersion :=
              max s.minKnownCommittedVersion req.minKnownCommittedVersion }
          req.version req.messages)).persistentQueue ++ _ = _
    rw [f6, p6]
  · show ((req.additionalMessages.getD []).foldl
        (fun st am => commitMessages st req.version am)
        (commitMessages
          { s with
            minKnownCommittedVersion :=
              max s.minKnownCommittedVersion req.minKnownCommittedVersion }
          req.version req.messages)).messageBlocks.length =
      s.messageBlocks.length + 1 + ams.length
    rw [hadd, Option.getD_some]
    rw [fold_commitMessages_blocks_len req.version ams hams]
    rw [commitMessages_blocks_len _ req.version req.messages hm]

/-- Witness for C10: one merged request with one additional part. -/
theorem c10_merged_commit_queue_entry_witness :
    (∃ kcv, (tLogCommit (initialLogDataState tagLocalitySpecial 0 0)
        ⟨0, 7, 0, 0, [⟨[⟨0, 0⟩], 4⟩], some [[⟨[⟨0, 0⟩], 6⟩]],
          some ⟨1, 2, 0⟩⟩).persistentQueue =
      (initialLogDataState tagLocalitySpecial 0 0).persistentQueue ++
        [⟨7, kcv, [⟨[⟨0, 0⟩], 4⟩]⟩]) ∧
    (tLogCommit (initialLogDataState tagLocalitySpecial 0 0)
        ⟨0, 7, 0, 0, [⟨[⟨0, 0⟩], 4⟩], some [[⟨[⟨0, 0⟩], 6⟩]],
          some ⟨1, 2, 0⟩⟩).messageBlocks.length =
      (initialLogDataState tagLocalitySpecial 0 0).messageBlocks.length + 1 + 1 :=
  c10_merged_commit_queue_entry (initialLogDataState tagLocalitySpecial 0 0)
    ⟨0, 7, 0, 0, [⟨[⟨0, 0⟩], 4⟩], some [[⟨[⟨0, 0⟩], 6⟩]], some ⟨1, 2, 0⟩⟩
    [[⟨[⟨0, 0⟩], 6⟩]] (by decide) rfl (by decide) (by decide)

/-- C8 (counterexample): pops are NOT clamped to the TLog's version.
On the one-commit demo state (`version = 5`), `tLogPop((0,0), 10)`
leaves the tag's popped version at 10, strictly above `version`:
`tLogPopCore` (TLogServer.actor.cpp:1053-1101) advances
`tagData->popped` to the requested version unconditionally. -/
theorem c8_counterexample_pop_not_clamped :
    (tLogPopCore popDemoState ⟨0, 0⟩ 10).version = 5 ∧
    (lookupTag (tLogPopCore popDemoState ⟨0, 0⟩ 10).tagData ⟨0, 0⟩).map
      TagDataM.popped = some 10 ∧
    ¬ (((lookupTag (tLogPopCore popDemoState ⟨0, 0⟩ 10).tagData
          ⟨0, 0⟩).map TagDataM.popped).getD 0 ≤
        (tLogPopCore popDemoState ⟨0, 0⟩ 10).version) := by
  decide

theorem lookupTag_setTag_self (td : List (TagM × TagDataM)) (t : TagM)
    (d : TagDataM) : lookupTag (setTag td t d) t = some d := by
  induction td with
  | nil => simp [setTag, lookupTag]
  | cons e rest ih =>
    rw [setTag]
    by_cases he : e.1 = t
    · rw [if_pos he, lookupTag, if_pos rfl]
    · rw [if_neg he, lookupTag, if_neg he]
      exact ih

/-- C8 (amended): a pop request for an existing tag sets the tag's
popped version to the maximum of its old value and the requested
version, without clamping against the TLog's current version (so the
popped version may exceed `version`); the TLog's `version` itself is
unchanged. -/
theorem c8_pop_sets_unclamped_max (s : LogDataState) (tag : TagM)
    (upTo : ℕ) (td : TagDataM) (hlk : lookupTag s.tagData tag = some td) :
    (lookupTag (tLogPopCore s tag upTo).tagData tag).map TagDataM.popped =
      some (max td.popped upTo) ∧
    (tLogPopCore s tag upTo).version = s.version := by
  unfold tLogPopCore
  rw [hlk]
  dsimp only
  by_cases hpop : td.popped < upTo
  · rw [if_pos hpop]
    by_cases hdur : s.persistentDataDurableVersion < upTo
    · rw [if_pos hdur]
      constructor
      · show (lookupTag (setTag s.tagData tag _) tag).map TagDataM.popped = _
        rw [lookupTag_setTag_self]
        show some (({ td with popped := upTo } :
          TagDataM).popped) = some (max td.popped upTo)
        show some upTo = some (max td.popped upTo)
        rw [Nat.max_eq_right (le_of_lt hpop)]
      · rfl
    · rw [if_neg hdur]
      constructor
      · show (lookupTag (setTag s.tagData tag _) tag).map TagDataM.popped = _
        rw [lookupTag_setTag_self]
        show some upTo = some (max td.popped upTo)
        rw [Nat.max_eq_right (le_of_lt hpop)]
      · rfl
  · rw [if_neg hpop]
    constructor
    · rw [hlk]
      show some td.popped = some (max td.popped upTo)
      rw [Nat.max_eq_left (by omega)]
    · rfl

/-- Witness for C8 (amended) on the demo state. -/
theorem c8_pop_sets_unclamped_max_witness :
    (lookupTag (tLogPopCore popDemoState ⟨0, 0⟩ 10).tagData ⟨0, 0⟩).map
        TagDataM.popped =
      some (max (⟨0, [(5, 10)]⟩ : TagDataM).popped 10) ∧
    (tLogPopCore popDemoState ⟨0, 0⟩ 10).version = popDemoState.version :=
  c8_pop_sets_unclamped_max popDemoState ⟨0, 0⟩ 10 ⟨0, [(5, 10)]⟩ (by decide)

/-! ## Merged peek cursor (src/fdbserver/ptxn/TLogPeekCursor.actor.cpp)

`MergedPeekCursor` holds a list of child cursors (`cursorPtrs`) and a
priority queue `cursorHeap` of `IndexedCursor` entries.  A child
(`ServerTeamPeekCursor`) serves mutations from its deserializer
(`localBuf` here) and refills it from a remote TLog through
`remoteMoreAvailable` (`remoteSegs` holds the contents of the future
peek replies, one list per reply; `peekRemote`,
TLogPeekCursor.actor.cpp:87-120, returns `false` when a reply carries
no mutations).  Mutations are modelled by their `(version,
subsequence)` pair — the payload plays no role in ordering claims.
The heap comparator lives in fdbserver/ptxn/TLogPeekCursor.actor.h,
which is not part of the source snapshot; modelled from the spec
(§4.8): a min-heap keyed by `(version, subsequence, cursor_id)`. -/

/-- A mutation as seen by the peek cursors, reduced to its ordering
key. -/
structure VersionSubsequenceMutationM where
  version : ℕ
  subsequence : ℕ
deriving DecidableEq

/-- Lexicographic order on `(version, subsequence)`. -/
def vsmLT (a b : VersionSubsequenceMutationM) : Prop :=
  a.version < b.version ∨
    (a.version = b.version ∧ a.subsequence < b.subsequence)

instance (a b : VersionSubsequenceMutationM) : Decidable (vsmLT a b) :=
  inferInstanceAs (Decidable (a.version < b.version ∨
    (a.version = b.version ∧ a.subsequence < b.subsequence)))

/-- A child cursor: the remaining content of its deserializer and the
contents of the future remote peek replies. -/
structure ServerTeamPeekCursorM where
  localBuf : List VersionSubsequenceMutationM
  remoteSegs : List (List VersionSubsequenceMutationM)
deriving DecidableEq

/-- The full sequence of mutations a child cursor will ever yield. -/
def cursorStream (c : ServerTeamPeekCursorM) :
    List VersionSubsequenceMutationM :=
  c.localBuf ++ c.remoteSegs.join

/-- Source `IndexedCursor` (TLogPeekCursor.actor.cpp:297-300): the
version and subsequence of the cursor's current mutation plus a
reference to the cursor (modelled by a numeric id). -/
structure IndexedCursorM where
  version : ℕ
  subsequence : ℕ
  cursorId : ℕ
deriving DecidableEq

/-- Modelled from the spec (§4.8): the min-heap comparator of
`MergedPeekCursor::CursorHeap`, keyed by
`(version, subsequence, cursor_id)`. -/
def icKeyLT (a b : IndexedCursorM) : Prop :=
  a.version < b.version ∨
    (a.version = b.version ∧
      (a.subsequence < b.subsequence ∨
        (a.subsequence = b.subsequence ∧ a.cursorId < b.cursorId)))

instance (a b : IndexedCursorM) : Decidable (icKeyLT a b) :=
  inferInstanceAs (Decidable (a.version < b.version ∨
    (a.version = b.version ∧
      (a.subsequence < b.subsequence ∨
        (a.subsequence = b.subsequence ∧ a.cursorId < b.cursorId)))))

/-- The top of the heap: an entry minimal for `icKeyLT` (the heap's
contents are modelled as the list of its entries, the root as the
minimum the comparator defines). -/
def heapTop : List IndexedCursorM → Option IndexedCursorM
  | [] => none
  | e :: rest =>
    match heapTop rest with
    | none => some e
    | some m => if icKeyLT m e then some m else some e

/-- State of a `MergedPeekCursor`: the child cursor list (with stable
ids) and the heap. -/
structure MergedPeekCursorM where
  cursorPtrs : List (ℕ × ServerTeamPeekCursorM)
  cursorHeap : List IndexedCursorM
deriving DecidableEq

/-- First-match lookup of a cursor by id. -/
def lookupCursor (cs : List (ℕ × ServerTeamPeekCursorM)) (i : ℕ) :
    Option ServerTeamPeekCursorM :=
  match cs with
  | [] => none
  | e :: rest => if e.1 = i then some e.2 else lookupCursor rest i

/-- Replace the first entry with the given id. -/
def updateCursor (cs : List (ℕ × ServerTeamPeekCursorM)) (i : ℕ)
    (c : ServerTeamPeekCursorM) : List (ℕ × ServerTeamPeekCursorM) :=
  match cs with
  | [] => []
  | e :: rest =>
    if e.1 = i then (i, c) :: rest else e :: updateCursor rest i c

/-- Source `MergedPeekCursor::hasRemainingImpl`
(TLogPeekCursor.actor.cpp:335-347): `false` when there are no cursors
or when any cursor has exhausted its local mutations. -/
def mergedHasRemaining (st : MergedPeekCursorM) : Bool :=
  ¬ st.cursorPtrs.isEmpty ∧
    ∀ p ∈ st.cursorPtrs, ¬ p.2.localBuf.isEmpty

/-- Source `MergedPeekCursor::getImpl`
(TLogPeekCursor.actor.cpp:331-333): the current mutation of the cursor
referenced by the heap root. -/
def mergedGet (st : MergedPeekCursorM) :
    Option VersionSubsequenceMutationM :=
  (heapTop st.cursorHeap).bind fun top =>
    (lookupCursor st.cursorPtrs top.cursorId).bind fun c =>
      c.localBuf.head?

/-- Source `MergedPeekCursor::nextImpl`
(TLogPeekCursor.actor.cpp:321-329): pop the heap root, advance its
cursor, and push the cursor's new `(version, subsequence)` back when it
still has remaining mutations. -/
def mergedNext (st : MergedPeekCursorM) : MergedPeekCursorM :=
  match heapTop st.cursorHeap with
  | none => st
  | some top =>
    let h := st.cursorHeap.erase top
    match lookupCursor st.cursorPtrs top.cursorId with
    | none => { st with cursorHeap := h }
    | some c =>
      let c' : ServerTeamPeekCursorM := { c with localBuf := c.localBuf.tail }
      let cs := updateCursor st.cursorPtrs top.cursorId c'
      match c'.localBuf.head? with
      | none => { cursorPtrs := cs, cursorHeap := h }
      | some v =>
        { cursorPtrs := cs,
          cursorHeap := ⟨v.version, v.subsequence, top.cursorId⟩ :: h }

/-- Source `peekRemote` (TLogPeekCursor.actor.cpp:87-120) for one
child: re-seat the deserializer on the next reply; the result is
`false` when there is no reply or the reply carries no mutations. -/
def childPeekRemote (c : ServerTeamPeekCursorM) :
    Bool × ServerTeamPeekCursorM :=
  match c.remoteSegs with
  | [] => (false, c)
  | seg :: rest => (¬ seg.isEmpty, ⟨seg, rest⟩)

/-- Refill a cursor if (and only if) it is locally exhausted
(TLogPeekCursor.actor.cpp:144-154 peek only locally-exhausted
cursors). -/
def refillCursor (e : ℕ × ServerTeamPeekCursorM) :
    ℕ × ServerTeamPeekCursorM :=
  if e.2.localBuf.isEmpty then (e.1, (childPeekRemote e.2).2) else e

/-- Source `peekRemoteForMergedCursor`
(TLogPeekCursor.actor.cpp:135-172): every locally-exhausted cursor
peeks its remote; cursors whose peek returned `false` are erased from
the list (their heap entries never existed, since an entry mirrors a
cursor with remaining mutations); the others get a heap entry for
their new head (`addCursorToCursorHeap`, lines 128-132).  The returned
flag is `!cursorPtrs.empty()`. -/
def mergedRefill (st : MergedPeekCursorM) : Bool × MergedPeekCursorM :=
  let cs := (st.cursorPtrs.map refillCursor).filter
    (fun e => ¬ e.2.localBuf.isEmpty)
  let newEntries := (st.cursorPtrs.filter (fun e => e.2.localBuf.isEmpty)).filterMap
    (fun e => ((refillCursor e).2.localBuf.head?).map
      (fun v => (⟨v.version, v.subsequence, e.1⟩ : IndexedCursorM)))
  (¬ cs.isEmpty, ⟨cs, st.cursorHeap ++ newEntries⟩)

/-- Source `MergedPeekCursor::remoteMoreAvailableImpl`
(TLogPeekCursor.actor.cpp:312-319): `false` with no state change when
no cursors are active. -/
def mergedRemoteMoreAvailable (st : MergedPeekCursorM) :
    Bool × MergedPeekCursorM :=
  if st.cursorPtrs.isEmpty then (false, st) else mergedRefill st

/-- The consumer loop of the iterator protocol (`PeekCursorBase`
iteration, TLogPeekCursor.actor.cpp:204-245 and the `advanceTo` loop,
lines 427-455): while the merged cursor has remaining mutations,
observe `get()` and call `next()`; otherwise ask
`remoteMoreAvailable()` and stop when it returns `false`.  `fuel`
bounds the number of steps. -/
def runMergedPeekCursor : ℕ → MergedPeekCursorM →
    List VersionSubsequenceMutationM
  | 0, _ => []
  | fuel + 1, st =>
    if mergedHasRemaining st then
      match mergedGet st with
      | some v => v :: runMergedPeekCursor fuel (mergedNext st)
      | none => []
    else
      let r := mergedRemoteMoreAvailable st
      if r.1 then runMergedPeekCursor fuel r.2 else []

/-- The merged cursor obtained by calling
`MergedPeekCursor::addCursorImpl` (TLogPeekCursor.actor.cpp:349-356)
once per child, in order: each child is appended to `cursorPtrs` (its
id is its position) and, when it has remaining mutations, a heap entry
for its current mutation is pushed. -/
def mkMergedPeekCursor (children : List ServerTeamPeekCursorM) :
    MergedPeekCursorM :=
  { cursorPtrs := children.enum
    cursorHeap := children.enum.filterMap
      (fun e => (e.2.localBuf.head?).map
        (fun v => (⟨v.version, v.subsequence, e.1⟩ : IndexedCursorM))) }

/-- C9 (counterexample): two child cursors that each yield the single
mutation `(1, 1)` — each individually strictly increasing — produce
the merged output `[(1,1), (1,1)]`, which is not strictly increasing
in `(version, subsequence)`. -/
theorem c9_counterexample_duplicate_pairs :
    (∀ c ∈ [(⟨[⟨1, 1⟩], []⟩ : ServerTeamPeekCursorM), ⟨[⟨1, 1⟩], []⟩],
      (cursorStream c).Chain' vsmLT) ∧
    runMergedPeekCursor 5
        (mkMergedPeekCursor [⟨[⟨1, 1⟩], []⟩, ⟨[⟨1, 1⟩], []⟩]) =
      [⟨1, 1⟩, ⟨1, 1⟩] ∧
    ¬ (runMergedPeekCursor 5
        (mkMergedPeekCursor [⟨[⟨1, 1⟩], []⟩, ⟨[⟨1, 1⟩], []⟩])).Chain' vsmLT := by
  refine ⟨?_, by decide, ?_⟩
  · intro c hc
    rcases List.mem_cons.mp hc with h | h
    · rw [h]
      simp [cursorStream]
    · rw [List.mem_singleton.mp h]
      simp [cursorStream]
  · intro h
    rw [show runMergedPeekCursor 5
        (mkMergedPeekCursor [⟨[⟨1, 1⟩], []⟩, ⟨[⟨1, 1⟩], []⟩]) =
      [⟨1, 1⟩, ⟨1, 1⟩] by decide] at h
    have := List.chain'_cons.mp h
    exact absurd this.1 (by decide)

/-- Strict transitivity of the mutation order. -/
theorem vsmLT_trans {a b c : VersionSubsequenceMutationM}
    (h₁ : vsmLT a b) (h₂ : vsmLT b c) : vsmLT a c := by
  unfold vsmLT at *
  omega

/-- The heap key order is total up to equality. -/
theorem icKeyLT_total {a b : IndexedCursorM} (h : ¬ icKeyLT a b) :
    a = b ∨ icKeyLT b a := by
  rcases a with ⟨av, asq, ai⟩
  rcases b with ⟨bv, bsq, bi⟩
  unfold icKeyLT at *
  simp only [IndexedCursorM.mk.injEq]
  by_cases he : av = bv ∧ asq = bsq ∧ ai = bi
  · exact Or.inl he
  · right
    simp only at h he ⊢
    omega

/-- In a strictly increasing list, the head is below every later
element. -/
theorem chain'_head_lt {x : VersionSubsequenceMutationM}
    {l : List VersionSubsequenceMutationM}
    (h : List.Chain' vsmLT (x :: l)) : ∀ y ∈ l, vsmLT x y := by
  induction l generalizing x with
  | nil => intro y hy; cases hy
  | cons z rest ih =>
    intro y hy
    have h1 := List.chain'_cons.mp h
    rcases List.mem_cons.mp hy with rfl | hy'
    · exact h1.1
    · exact vsmLT_trans h1.1 (ih h1.2 y hy')

theorem heapTop_eq_none {h : List IndexedCursorM} (hh : heapTop h = none) :
    h = [] := by
  cases h with
  | nil => rfl
  | cons x rest =>
    rw [heapTop] at hh
    cases hr : heapTop rest <;> rw [hr] at hh <;> dsimp only at hh
    · cases hh
    · split at hh <;> cases hh

theorem heapTop_mem {h : List IndexedCursorM} {e : IndexedCursorM}
    (he : heapTop h = some e) : e ∈ h := by
  induction h with
  | nil => cases he
  | cons x rest ih =>
    rw [heapTop] at he
    cases hr : heapTop rest with
    | none =>
      rw [hr] at he
      dsimp only at he
      injection he with he
      exact he ▸ List.mem_cons_self x rest
    | some m =>
      rw [hr] at he
      dsimp only at he
      by_cases hlt : icKeyLT m x
      · rw [if_pos hlt] at he
        injection he with he
        subst he
        exact List.mem_cons_of_mem x (ih hr)
      · rw [if_neg hlt] at he
        injection he with he
        exact he ▸ List.mem_cons_self x rest

theorem heapTop_min {h : List IndexedCursorM} :
    ∀ {e : IndexedCursorM}, heapTop h = some e → ∀ x ∈ h, ¬ icKeyLT x e := by
  induction h with
  | nil => intro e he; cases he
  | cons y rest ih =>
    intro e he x hx
    rw [heapTop] at he
    cases hr : heapTop rest with
    | none =>
      rw [hr] at he
      dsimp only at he
      injection he with he
      have hrest : rest = [] := heapTop_eq_none hr
      subst hrest
      rcases List.mem_singleton.mp hx with rfl
      rw [← he]
      unfold icKeyLT
      omega
    | some m =>
      rw [hr] at he
      dsimp only at he
      by_cases hlt : icKeyLT m y
      · rw [if_pos hlt] at he
        injection he with he
        subst he
        rcases List.mem_cons.mp hx with rfl | hx'
        · intro hc
          unfold icKeyLT at hlt hc
          omega
        · exact ih hr x hx'
      · rw [if_neg hlt] at he
        injection he with he
        subst he
        rcases List.mem_cons.mp hx with rfl | hx'
        · intro hc
          unfold icKeyLT at hc
          omega
        · intro hc
          apply ih hr x hx'
          rcases icKeyLT_total hlt with heq | hml
          · rw [heq]
            exact hc
          · unfold icKeyLT at hc hml ⊢
            omega

theorem lookupCursor_mem {cs : List (ℕ × ServerTeamPeekCursorM)} {i : ℕ}
    {c : ServerTeamPeekCursorM} (h : lookupCursor cs i = some c) :
    (i, c) ∈ cs := by
  induction cs with
  | nil => cases h
  | cons e rest ih =>
    rw [lookupCursor] at h
    by_cases he : e.1 = i
    · rw [if_pos he] at h
      injection h with h
      have : e = (i, c) := by
        rcases e with ⟨e1, e2⟩
        simp only at he h
        rw [he, h]
      exact this ▸ List.mem_cons_self e rest
    · rw [if_neg he] at h
      exact List.mem_cons_of_mem e (ih h)

theorem mem_lookupCursor {cs : List (ℕ × ServerTeamPeekCursorM)}
    (hnd : (cs.map Prod.fst).Nodup) {i : ℕ} {c : ServerTeamPeekCursorM}
    (h : (i, c) ∈ cs) : lookupCursor cs i = some c := by
  induction cs with
  | nil => cases h
  | cons e rest ih =>
    rw [List.map_cons, List.nodup_cons] at hnd
    rw [lookupCursor]
    rcases List.mem_cons.mp h with rfl | h'
    · rw [if_pos rfl]
    · by_cases he : e.1 = i
      · exfalso
        apply hnd.1
        rw [he]
        exact List.mem_map_of_mem Prod.fst h'
      · rw [if_neg he]
        exact ih hnd.2 h'

theorem updateCursor_map_fst (cs : List (ℕ × ServerTeamPeekCursorM))
    (i : ℕ) (c : ServerTeamPeekCursorM) :
    (updateCursor cs i c).map Prod.fst = cs.map Prod.fst := by
  induction cs with
  | nil => rfl
  | cons e rest ih =>
    rw [updateCursor]
    by_cases he : e.1 = i
    · rw [if_pos he]
      simp [he]
    · rw [if_neg he]
      simp [ih]

theorem mem_updateCursor_of_ne {cs : List (ℕ × ServerTeamPeekCursorM)}
    {i j : ℕ} {c c₀ : ServerTeamPeekCursorM} (h : (j, c₀) ∈ cs)
    (hne : j ≠ i) : (j, c₀) ∈ updateCursor cs i c := by
  induction cs with
  | nil => cases h
  | cons e rest ih =>
    rw [updateCursor]
    rcases List.mem_cons.mp h with rfl | h'
    · rw [if_neg (by simpa using hne)]
      exact List.mem_cons_self _ _
    · by_cases he : e.1 = i
      · rw [if_pos he]
        exact List.mem_cons_of_mem _ h'
      · rw [if_neg he]
        exact List.mem_cons_of_mem e (ih h')

theorem mem_updateCursor_elim {cs : List (ℕ × ServerTeamPeekCursorM)}
    (hnd : (cs.map Prod.fst).Nodup) {i : ℕ}
    {c : ServerTeamPeekCursorM} {p : ℕ × ServerTeamPeekCursorM}
    (h : p ∈ updateCursor cs i c) :
    p = (i, c) ∨ (p ∈ cs ∧ p.1 ≠ i) := by
  induction cs with
  | nil => cases h
  | cons e rest ih =>
    rw [List.map_cons, List.nodup_cons] at hnd
    rw [updateCursor] at h
    by_cases he : e.1 = i
    · rw [if_pos he] at h
      rcases List.mem_cons.mp h with rfl | h'
      · exact Or.inl rfl
      · right
        refine ⟨List.mem_cons_of_mem e h', ?_⟩
        intro hpi
        apply hnd.1
        rw [he, ← hpi]
        exact List.mem_map_of_mem Prod.fst h'
    · rw [if_neg he] at h
      rcases List.mem_cons.mp h with rfl | h'
      · exact Or.inr ⟨List.mem_cons_self _ _, he⟩
      · rcases ih hnd.2 h' with h2 | ⟨h2, h3⟩
        · exact Or.inl h2
        · exact Or.inr ⟨List.mem_cons_of_mem e h2, h3⟩

theorem lookupCursor_updateCursor_self
    {cs : List (ℕ × ServerTeamPeekCursorM)} {i : ℕ}
    {c₀ : ServerTeamPeekCursorM} (h : lookupCursor cs i = some c₀)
    (c : ServerTeamPeekCursorM) :
    lookupCursor (updateCursor cs i c) i = some c := by
  induction cs with
  | nil => cases h
  | cons e rest ih =>
    rw [lookupCursor] at h
    rw [updateCursor]
    by_cases he : e.1 = i
    · rw [if_pos he, lookupCursor, if_pos rfl]
    · rw [if_neg he] at h
      rw [if_neg he, lookupCursor, if_neg he]
      exact ih h

/-- Heap entries reference cursors injectively when the entry ids are
distinct. -/
theorem heap_eq_of_id {h : List IndexedCursorM}
    (hnd : (h.map IndexedCursorM.cursorId).Nodup) {a b : IndexedCursorM}
    (ha : a ∈ h) (hb : b ∈ h) (hid : a.cursorId = b.cursorId) : a = b := by
  induction h with
  | nil => cases ha
  | cons x rest ih =>
    rw [List.map_cons, List.nodup_cons] at hnd
    rcases List.mem_cons.mp ha with rfl | ha' <;>
      rcases List.mem_cons.mp hb with rfl | hb'
    · rfl
    · exact absurd (hid ▸ List.mem_map_of_mem IndexedCursorM.cursorId hb') hnd.1
    · exact absurd (hid ▸ List.mem_map_of_mem IndexedCursorM.cursorId ha') hnd.1
    · exact ih hnd.2 ha' hb'

/-- Cursors with the same id coincide when the ids are distinct. -/
theorem cursor_eq_of_id {cs : List (ℕ × ServerTeamPeekCursorM)}
    (hnd : (cs.map Prod.fst).Nodup) {i : ℕ}
    {c₁ c₂ : ServerTeamPeekCursorM} (h₁ : (i, c₁) ∈ cs)
    (h₂ : (i, c₂) ∈ cs) : c₁ = c₂ := by
  have e₁ := mem_lookupCursor hnd h₁
  have e₂ := mem_lookupCursor hnd h₂
  rw [e₁] at e₂
  exact Option.some.inj e₂

/-- A bound on a mutation from an optional previously-emitted one. -/
def optVsmLT : Option VersionSubsequenceMutationM →
    VersionSubsequenceMutationM → Prop
  | none, _ => True
  | some u, v => vsmLT u v

/-- Well-formedness of a merged-cursor state relative to the last
emitted mutation `lo`: cursor and heap ids are distinct; every heap
entry mirrors the current head of its (present) cursor; every cursor
with remaining local mutations has a heap entry; every cursor's full
stream is strictly increasing; streams of distinct cursors never share
a `(version, subsequence)` pair; and everything still to be yielded
lies strictly above `lo`. -/
structure MergedWF (lo : Option VersionSubsequenceMutationM)
    (st : MergedPeekCursorM) : Prop where
  ids_nodup : (st.cursorPtrs.map Prod.fst).Nodup
  heap_ids_nodup : (st.cursorHeap.map IndexedCursorM.cursorId).Nodup
  heap_sound : ∀ e ∈ st.cursorHeap, ∃ c,
    (e.cursorId, c) ∈ st.cursorPtrs ∧
    c.localBuf.head? = some ⟨e.version, e.subsequence⟩
  heap_complete : ∀ p ∈ st.cursorPtrs, p.2.localBuf ≠ [] →
    ∃ e ∈ st.cursorHeap, e.cursorId = p.1
  streams_inc : ∀ p ∈ st.cursorPtrs, List.Chain' vsmLT (cursorStream p.2)
  streams_disj : ∀ p ∈ st.cursorPtrs, ∀ q ∈ st.cursorPtrs, p.1 ≠ q.1 →
    ∀ v ∈ cursorStream p.2, v ∉ cursorStream q.2
  bound : ∀ p ∈ st.cursorPtrs, ∀ v ∈ cursorStream p.2, optVsmLT lo v


theorem stream_eq_cons {c : ServerTeamPeekCursorM}
    {v : VersionSubsequenceMutationM} (hh : c.localBuf.head? = some v) :
    cursorStream c =
      v :: cursorStream ⟨c.localBuf.tail, c.remoteSegs⟩ := by
  rcases c with ⟨lb, rs⟩
  cases lb with
  | nil => cases hh
  | cons x t =>
    injection hh with hh
    subst hh
    simp [cursorStream]

theorem chain'_cons_of_forall {v : VersionSubsequenceMutationM}
    {l : List VersionSubsequenceMutationM} (h1 : ∀ w ∈ l, vsmLT v w)
    (h2 : List.Chain' vsmLT l) : List.Chain' vsmLT (v :: l) := by
  rw [List.chain'_cons']
  refine ⟨?_, h2⟩
  intro b hb
  exact h1 b (List.mem_of_mem_head? hb)

theorem erase_ids_nodup {h : List IndexedCursorM} {top : IndexedCursorM}
    (hnd : (h.map IndexedCursorM.cursorId).Nodup) :
    ((h.erase top).map IndexedCursorM.cursorId).Nodup :=
  hnd.sublist ((h.erase_sublist top).map IndexedCursorM.cursorId)

theorem mem_erase_ne_id {h : List IndexedCursorM} {top b : IndexedCursorM}
    (hnd : (h.map IndexedCursorM.cursorId).Nodup) (htop : top ∈ h)
    (hb : b ∈ h.erase top) : b.cursorId ≠ top.cursorId := by
  have hh : h.Nodup := List.Nodup.of_map _ hnd
  rcases (hh.mem_erase_iff).mp hb with ⟨hne, hbh⟩
  intro hc
  exact hne (heap_eq_of_id hnd hbh htop hc)

theorem mem_erase_of_ne_heap {h : List IndexedCursorM}
    {top b : IndexedCursorM} (hnd : (h.map IndexedCursorM.cursorId).Nodup)
    (hb : b ∈ h) (hne : b ≠ top) : b ∈ h.erase top :=
  ((List.Nodup.of_map _ hnd).mem_erase_iff).mpr ⟨hne, hb⟩

theorem filterMap_ids_sublist (l : List (ℕ × ServerTeamPeekCursorM))
    (g : (ℕ × ServerTeamPeekCursorM) → Option IndexedCursorM)
    (hg : ∀ e x, g e = some x → x.cursorId = e.1) :
    ((l.filterMap g).map IndexedCursorM.cursorId).Sublist
      (l.map Prod.fst) := by
  induction l with
  | nil => exact List.Sublist.refl _
  | cons e rest ih =>
    rw [List.filterMap_cons, List.map_cons]
    cases hge : g e with
    | none => exact ih.cons e.1
    | some x =>
      rw [List.map_cons, hg e x hge]
      exact ih.cons₂ e.1

theorem mergedGet_elim {st : MergedPeekCursorM}
    {v : VersionSubsequenceMutationM} (h : mergedGet st = some v) :
    ∃ top c, heapTop st.cursorHeap = some top ∧
      lookupCursor st.cursorPtrs top.cursorId = some c ∧
      c.localBuf.head? = some v := by
  rw [mergedGet] at h
  rcases Option.bind_eq_some.mp h with ⟨top, htop, h2⟩
  rcases Option.bind_eq_some.mp h2 with ⟨c, hc, h3⟩
  exact ⟨top, c, htop, hc, h3⟩

theorem mergedHasRemaining_elim {st : MergedPeekCursorM}
    (h : mergedHasRemaining st = true) :
    ∀ p ∈ st.cursorPtrs, p.2.localBuf ≠ [] := by
  rw [mergedHasRemaining] at h
  simp only [decide_eq_true_eq] at h
  intro p hp
  have := h.2 p hp
  simpa [List.isEmpty_iff] using this

theorem mergedNext_eq_none {st : MergedPeekCursorM} {top : IndexedCursorM}
    {c : ServerTeamPeekCursorM}
    (htop : heapTop st.cursorHeap = some top)
    (hlk : lookupCursor st.cursorPtrs top.cursorId = some c)
    (hh : c.localBuf.tail.head? = none) :
    mergedNext st =
      ⟨updateCursor st.cursorPtrs top.cursorId ⟨c.localBuf.tail, c.remoteSegs⟩,
        st.cursorHeap.erase top⟩ := by
  rw [mergedNext, htop]
  dsimp only
  rw [hlk]
  dsimp only
  rw [hh]

theorem mergedNext_eq_some {st : MergedPeekCursorM} {top : IndexedCursorM}
    {c : ServerTeamPeekCursorM} {w : VersionSubsequenceMutationM}
    (htop : heapTop st.cursorHeap = some top)
    (hlk : lookupCursor st.cursorPtrs top.cursorId = some c)
    (hh : c.localBuf.tail.head? = some w) :
    mergedNext st =
      ⟨updateCursor st.cursorPtrs top.cursorId ⟨c.localBuf.tail, c.remoteSegs⟩,
        ⟨w.version, w.subsequence, top.cursorId⟩ :: st.cursorHeap.erase top⟩ := by
  rw [mergedNext, htop]
  dsimp only
  rw [hlk]
  dsimp only
  rw [hh]

theorem refillCursor_fst (e : ℕ × ServerTeamPeekCursorM) :
    (refillCursor e).1 = e.1 := by
  rw [refillCursor]
  split
  · rfl
  · rfl

theorem refillCursor_stream (e : ℕ × ServerTeamPeekCursorM) :
    cursorStream (refillCursor e).2 = cursorStream e.2 := by
  rw [refillCursor]
  split
  · rcases e with ⟨i, lb, rs⟩
    rename_i hemp
    rw [List.isEmpty_iff] at hemp
    dsimp only at hemp ⊢
    subst hemp
    cases rs with
    | nil => rfl
    | cons seg rest => simp [childPeekRemote, cursorStream]
  · rfl


theorem optVsmLT_trans {lo : Option VersionSubsequenceMutationM}
    {v w : VersionSubsequenceMutationM} (h1 : optVsmLT lo v)
    (h2 : vsmLT v w) : optVsmLT lo w := by
  cases lo with
  | none => trivial
  | some u => exact vsmLT_trans h1 h2

/-- Emitting one mutation: under well-formedness, when the merged
cursor has remaining mutations and `get` yields `v`, `v` lies above the
last emitted mutation and the advanced state is well-formed relative
to `v`. -/
theorem mergedNext_wf {lo : Option VersionSubsequenceMutationM}
    {st : MergedPeekCursorM} {v : VersionSubsequenceMutationM}
    (hwf : MergedWF lo st) (hrem : mergedHasRemaining st = true)
    (hg : mergedGet st = some v) :
    optVsmLT lo v ∧ MergedWF (some v) (mergedNext st) := by
  obtain ⟨top, c, htop, hlk, hhd⟩ := mergedGet_elim hg
  have hcmem : (top.cursorId, c) ∈ st.cursorPtrs := lookupCursor_mem hlk
  have htopmem : top ∈ st.cursorHeap := heapTop_mem htop
  obtain ⟨c₀, hc₀mem, hc₀hd⟩ := hwf.heap_sound top htopmem
  have hc₀c : c₀ = c := cursor_eq_of_id hwf.ids_nodup hc₀mem hcmem
  rw [hc₀c] at hc₀hd
  have hv : v = ⟨top.version, top.subsequence⟩ := by
    rw [hhd] at hc₀hd
    exact Option.some.inj hc₀hd
  have hstream : cursorStream c =
      v :: cursorStream ⟨c.localBuf.tail, c.remoteSegs⟩ :=
    stream_eq_cons hhd
  have hvmem : v ∈ cursorStream c := by
    rw [hstream]
    exact List.mem_cons_self _ _
  have hbound : optVsmLT lo v := hwf.bound _ hcmem v hvmem
  have hheadlt : ∀ w ∈ cursorStream ⟨c.localBuf.tail, c.remoteSegs⟩,
      vsmLT v w := by
    have hchain := hwf.streams_inc _ hcmem
    rw [hstream] at hchain
    exact chain'_head_lt hchain
  have hc'chain :
      List.Chain' vsmLT (cursorStream ⟨c.localBuf.tail, c.remoteSegs⟩) := by
    have hchain := hwf.streams_inc _ hcmem
    rw [hstream] at hchain
    exact hchain.tail
  have hother : ∀ q ∈ st.cursorPtrs, q.1 ≠ top.cursorId →
      ∀ w ∈ cursorStream q.2, vsmLT v w := by
    intro q hq hne w hw
    have hqbuf : q.2.localBuf ≠ [] := mergedHasRemaining_elim hrem q hq
    obtain ⟨e, hemem, heid⟩ := hwf.heap_complete q hq hqbuf
    obtain ⟨cq, hcqmem, hcqhd⟩ := hwf.heap_sound e hemem
    have hq2 : cq = q.2 :=
      cursor_eq_of_id hwf.ids_nodup (heid ▸ hcqmem) hq
    have hetop : e ≠ top := fun h => hne (by rw [← heid, h])
    have hnlt : ¬ icKeyLT e top := heapTop_min htop e hemem
    rcases icKeyLT_total hnlt with heq | hlt
    · exact absurd heq hetop
    have hu : q.2.localBuf.head? = some ⟨e.version, e.subsequence⟩ :=
      hq2 ▸ hcqhd
    have hustream := stream_eq_cons hu
    have hvu : vsmLT v ⟨e.version, e.subsequence⟩ := by
      rw [hv]
      unfold icKeyLT at hlt
      unfold vsmLT
      dsimp only
      rcases hlt with h | ⟨h1, h | ⟨h2, h3⟩⟩
      · exact Or.inl h
      · exact Or.inr ⟨h1, h⟩
      · exfalso
        refine hwf.streams_disj (top.cursorId, c) hcmem q hq
          (Ne.symm hne) v hvmem ?_
        rw [hustream]
        have hev : (⟨e.version, e.subsequence⟩ :
            VersionSubsequenceMutationM) = v := by
          rw [hv, ← h1, ← h2]
        rw [hev]
        exact List.mem_cons_self _ _
    rw [hustream] at hw
    rcases List.mem_cons.mp hw with rfl | hw'
    · exact hvu
    · have hchain := hwf.streams_inc q hq
      rw [hustream] at hchain
      exact vsmLT_trans hvu (chain'_head_lt hchain w hw')
  refine ⟨hbound, ?_⟩
  have hlkc' : lookupCursor
      (updateCursor st.cursorPtrs top.cursorId ⟨c.localBuf.tail, c.remoteSegs⟩)
      top.cursorId = some ⟨c.localBuf.tail, c.remoteSegs⟩ :=
    lookupCursor_updateCursor_self hlk _
  have hc'mem : (top.cursorId, (⟨c.localBuf.tail, c.remoteSegs⟩ :
      ServerTeamPeekCursorM)) ∈
      updateCursor st.cursorPtrs top.cursorId ⟨c.localBuf.tail, c.remoteSegs⟩ :=
    lookupCursor_mem hlkc'
  have hids : ((updateCursor st.cursorPtrs top.cursorId
      ⟨c.localBuf.tail, c.remoteSegs⟩).map Prod.fst).Nodup := by
    rw [updateCursor_map_fst]
    exact hwf.ids_nodup
  have hinc : ∀ p ∈ updateCursor st.cursorPtrs top.cursorId
      ⟨c.localBuf.tail, c.remoteSegs⟩, List.Chain' vsmLT (cursorStream p.2) := by
    intro p hp
    rcases mem_updateCursor_elim hwf.ids_nodup hp with rfl | ⟨hpold, _⟩
    · exact hc'chain
    · exact hwf.streams_inc p hpold
  have hsubc : ∀ w ∈ cursorStream (⟨c.localBuf.tail, c.remoteSegs⟩ :
      ServerTeamPeekCursorM), w ∈ cursorStream c := by
    intro w hw
    rw [hstream]
    exact List.mem_cons_of_mem v hw
  have hdisj : ∀ p ∈ updateCursor st.cursorPtrs top.cursorId
        ⟨c.localBuf.tail, c.remoteSegs⟩,
      ∀ q ∈ updateCursor st.cursorPtrs top.cursorId
        ⟨c.localBuf.tail, c.remoteSegs⟩,
      p.1 ≠ q.1 → ∀ w ∈ cursorStream p.2, w ∉ cursorStream q.2 := by
    intro p hp q hq hne w hw
    rcases mem_updateCursor_elim hwf.ids_nodup hp with rfl | ⟨hpold, hpne⟩ <;>
      rcases mem_updateCursor_elim hwf.ids_nodup hq with rfl | ⟨hqold, hqne⟩
    · exact absurd rfl hne
    · exact hwf.streams_disj (top.cursorId, c) hcmem q hqold hne w (hsubc w hw)
    · intro hwq
      exact hwf.streams_disj p hpold (top.cursorId, c) hcmem hne w hw
        (hsubc w hwq)
    · exact hwf.streams_disj p hpold q hqold hne w hw
  have hbnd : ∀ p ∈ updateCursor st.cursorPtrs top.cursorId
        ⟨c.localBuf.tail, c.remoteSegs⟩,
      ∀ w ∈ cursorStream p.2, optVsmLT (some v) w := by
    intro p hp w hw
    rcases mem_updateCursor_elim hwf.ids_nodup hp with rfl | ⟨hpold, hpne⟩
    · exact hheadlt w hw
    · exact hother p hpold hpne w hw
  have herasesound : ∀ e ∈ st.cursorHeap.erase top, ∃ c₁,
      (e.cursorId, c₁) ∈ updateCursor st.cursorPtrs top.cursorId
        ⟨c.localBuf.tail, c.remoteSegs⟩ ∧
      c₁.localBuf.head? = some ⟨e.version, e.subsequence⟩ := by
    intro e he
    have hne := mem_erase_ne_id hwf.heap_ids_nodup htopmem he
    obtain ⟨c₁, hc₁, hhd₁⟩ := hwf.heap_sound e (List.mem_of_mem_erase he)
    exact ⟨c₁, mem_updateCursor_of_ne hc₁ hne, hhd₁⟩
  have heraseids : ((st.cursorHeap.erase top).map
      IndexedCursorM.cursorId).Nodup :=
    erase_ids_nodup hwf.heap_ids_nodup
  have hcomplold : ∀ p ∈ st.cursorPtrs, p.1 ≠ top.cursorId →
      p.2.localBuf ≠ [] →
      ∃ e ∈ st.cursorHeap.erase top, e.cursorId = p.1 := by
    intro p hpold hpne hbuf
    obtain ⟨e, he, heid⟩ := hwf.heap_complete p hpold hbuf
    refine ⟨e, mem_erase_of_ne_heap hwf.heap_ids_nodup he ?_, heid⟩
    intro h
    exact hpne (by rw [← heid, h])
  cases hh' : c.localBuf.tail.head? with
  | none =>
    rw [mergedNext_eq_none htop hlk hh']
    refine ⟨hids, heraseids, herasesound, ?_, hinc, hdisj, hbnd⟩
    intro p hp hbuf
    rcases mem_updateCursor_elim hwf.ids_nodup hp with rfl | ⟨hpold, hpne⟩
    · exact absurd (List.head?_eq_none_iff.mp hh') hbuf
    · exact hcomplold p hpold hpne hbuf
  | some w₀ =>
    rw [mergedNext_eq_some htop hlk hh']
    refine ⟨hids, ?_, ?_, ?_, hinc, hdisj, hbnd⟩
    · rw [List.map_cons, List.nodup_cons]
      refine ⟨?_, heraseids⟩
      intro hmem
      rcases List.mem_map.mp hmem with ⟨b, hb, hbid⟩
      exact mem_erase_ne_id hwf.heap_ids_nodup htopmem hb hbid
    · intro e he
      rcases List.mem_cons.mp he with rfl | he'
      · exact ⟨⟨c.localBuf.tail, c.remoteSegs⟩, hc'mem, hh'⟩
      · exact herasesound e he'
    · intro p hp hbuf
      rcases mem_updateCursor_elim hwf.ids_nodup hp with rfl | ⟨hpold, hpne⟩
      · exact ⟨⟨w₀.version, w₀.subsequence, top.cursorId⟩,
          List.mem_cons_self _ _, rfl⟩
      · obtain ⟨e, he, heid⟩ := hcomplold p hpold hpne hbuf
        exact ⟨e, List.mem_cons_of_mem _ he, heid⟩


theorem refillCursor_of_ne_nil {e : ℕ × ServerTeamPeekCursorM}
    (h : e.2.localBuf ≠ []) : refillCursor e = e := by
  rw [refillCursor, if_neg]
  simpa [List.isEmpty_iff] using h

theorem mergedRefill_snd (st : MergedPeekCursorM) :
    (mergedRefill st).2 =
      ⟨(st.cursorPtrs.map refillCursor).filter
          (fun e => ¬ e.2.localBuf.isEmpty),
        st.cursorHeap ++
          (st.cursorPtrs.filter (fun e => e.2.localBuf.isEmpty)).filterMap
            (fun e => ((refillCursor e).2.localBuf.head?).map
              (fun v => (⟨v.version, v.subsequence, e.1⟩ :
                IndexedCursorM)))⟩ := rfl

/-- Refilling the locally-exhausted cursors preserves well-formedness:
each surviving cursor keeps its id and its full stream, and the new
heap entries mirror the refilled cursors' new heads. -/
theorem mergedRefill_wf {lo : Option VersionSubsequenceMutationM}
    {st : MergedPeekCursorM} (hwf : MergedWF lo st) :
    MergedWF lo (mergedRefill st).2 := by
  rw [mergedRefill_snd]
  have hmem_cs : ∀ p ∈ (st.cursorPtrs.map refillCursor).filter
      (fun e => ¬ e.2.localBuf.isEmpty),
      ∃ e ∈ st.cursorPtrs, refillCursor e = p := by
    intro p hp
    have hp1 := (List.mem_filter.mp hp).1
    rcases List.mem_map.mp hp1 with ⟨e, he, hep⟩
    exact ⟨e, he, hep⟩
  have hg : ∀ (e : ℕ × ServerTeamPeekCursorM) (x : IndexedCursorM),
      (((refillCursor e).2.localBuf.head?).map
        (fun v => (⟨v.version, v.subsequence, e.1⟩ : IndexedCursorM))) =
        some x → x.cursorId = e.1 := by
    intro e x hx
    rcases Option.map_eq_some'.mp hx with ⟨w, _, hw⟩
    rw [← hw]
  have hids : (((st.cursorPtrs.map refillCursor).filter
      (fun e => ¬ e.2.localBuf.isEmpty)).map Prod.fst).Nodup := by
    have h1 : (((st.cursorPtrs.map refillCursor).filter
        (fun e => ¬ e.2.localBuf.isEmpty)).map Prod.fst).Sublist
        ((st.cursorPtrs.map refillCursor).map Prod.fst) :=
      (List.filter_sublist _).map Prod.fst
    have h2 : (st.cursorPtrs.map refillCursor).map Prod.fst =
        st.cursorPtrs.map Prod.fst := by
      rw [List.map_map]
      exact List.map_congr_left (fun e _ => refillCursor_fst e)
    rw [h2] at h1
    exact hwf.ids_nodup.sublist h1
  have hnewids : (((st.cursorPtrs.filter
      (fun e => e.2.localBuf.isEmpty)).filterMap
        (fun e => ((refillCursor e).2.localBuf.head?).map
          (fun v => (⟨v.version, v.subsequence, e.1⟩ :
            IndexedCursorM)))).map IndexedCursorM.cursorId).Sublist
      (st.cursorPtrs.map Prod.fst) := by
    have h1 := filterMap_ids_sublist
      (st.cursorPtrs.filter (fun e => e.2.localBuf.isEmpty)) _ hg
    have h2 : ((st.cursorPtrs.filter
        (fun e => e.2.localBuf.isEmpty)).map Prod.fst).Sublist
        (st.cursorPtrs.map Prod.fst) :=
      (List.filter_sublist _).map Prod.fst
    exact h1.trans h2
  refine ⟨hids, ?_, ?_, ?_, ?_, ?_, ?_⟩
  · rw [List.map_append, List.nodup_append]
    refine ⟨hwf.heap_ids_nodup, hwf.ids_nodup.sublist hnewids, ?_⟩
    intro i hi hi'
    rcases List.mem_map.mp hi with ⟨e₀, he₀, he₀id⟩
    obtain ⟨c₀, hc₀mem, hc₀hd⟩ := hwf.heap_sound e₀ he₀
    rcases List.mem_map.mp hi' with ⟨x, hx, hxid⟩
    rcases List.mem_filterMap.mp hx with ⟨e, he, hge⟩
    have hxe : x.cursorId = e.1 := hg e x hge
    have hef := List.mem_filter.mp he
    have hempty : e.2.localBuf = [] := by
      have := hef.2
      simpa [List.isEmpty_iff] using this
    have heq : c₀ = e.2 := by
      refine cursor_eq_of_id hwf.ids_nodup ?_ hef.1
      have : e₀.cursorId = e.1 := by rw [he₀id, ← hxid, hxe]
      exact this ▸ hc₀mem
    rw [heq, hempty] at hc₀hd
    cases hc₀hd
  · intro e₀ he₀
    rcases List.mem_append.mp he₀ with he₀h | he₀n
    · obtain ⟨c₀, hc₀mem, hc₀hd⟩ := hwf.heap_sound e₀ he₀h
      have hne : c₀.localBuf ≠ [] := by
        intro h
        rw [h] at hc₀hd
        cases hc₀hd
      refine ⟨c₀, ?_, hc₀hd⟩
      refine List.mem_filter.mpr ⟨?_, ?_⟩
      · have := List.mem_map_of_mem refillCursor hc₀mem
        rwa [refillCursor_of_ne_nil hne] at this
      · simpa [List.isEmpty_iff] using hne
    · rcases List.mem_filterMap.mp he₀n with ⟨e, he, hge⟩
      rcases Option.map_eq_some'.mp hge with ⟨w, hw, hwx⟩
      have hef := List.mem_filter.mp he
      refine ⟨(refillCursor e).2, ?_, ?_⟩
      · rw [← hwx]
        have hre : refillCursor e = (e.1, (refillCursor e).2) := by
          rcases hfe : refillCursor e with ⟨i, c₁⟩
          have := refillCursor_fst e
          rw [hfe] at this
          rw [← this]
        refine List.mem_filter.mpr ⟨?_, ?_⟩
        · rw [← hre]
          exact List.mem_map_of_mem refillCursor hef.1
        · have : (refillCursor e).2.localBuf ≠ [] := by
            intro h
            rw [h] at hw
            cases hw
          simpa [List.isEmpty_iff] using this
      · rw [← hwx]
        exact hw
  · intro p hp hbuf
    rcases hmem_cs p hp with ⟨e, he, hep⟩
    by_cases hemp : e.2.localBuf = []
    · have hhd : ∃ w, (refillCursor e).2.localBuf.head? = some w := by
        cases hh : (refillCursor e).2.localBuf.head? with
        | none =>
          exfalso
          apply hbuf
          rw [← hep]
          exact List.head?_eq_none_iff.mp hh
        | some w => exact ⟨w, rfl⟩
      rcases hhd with ⟨w, hw⟩
      refine ⟨⟨w.version, w.subsequence, e.1⟩, ?_, ?_⟩
      · refine List.mem_append_right _ ?_
        refine List.mem_filterMap.mpr ⟨e, ?_, ?_⟩
        · refine List.mem_filter.mpr ⟨he, ?_⟩
          simpa [List.isEmpty_iff] using hemp
        · rw [hw]
          rfl
      · show e.1 = p.1
        rw [← hep, refillCursor_fst]
    · rw [refillCursor_of_ne_nil hemp] at hep
      subst hep
      obtain ⟨e₀, he₀, he₀id⟩ := hwf.heap_complete e he hbuf
      exact ⟨e₀, List.mem_append_left _ he₀, he₀id⟩
  · intro p hp
    rcases hmem_cs p hp with ⟨e, he, hep⟩
    have := hwf.streams_inc e he
    rwa [← refillCursor_stream e, hep] at this
  · intro p hp q hq hne w hw
    rcases hmem_cs p hp with ⟨e₁, he₁, hep⟩
    rcases hmem_cs q hq with ⟨e₂, he₂, heq⟩
    have hne' : e₁.1 ≠ e₂.1 := by
      rw [← refillCursor_fst e₁, ← refillCursor_fst e₂, hep, heq]
      exact hne
    have hw₁ : w ∈ cursorStream e₁.2 := by
      rwa [← refillCursor_stream e₁, hep]
    have := hwf.streams_disj e₁ he₁ e₂ he₂ hne' w hw₁
    rwa [← refillCursor_stream e₂, heq] at this
  · intro p hp w hw
    rcases hmem_cs p hp with ⟨e, he, hep⟩
    have hw₁ : w ∈ cursorStream e.2 := by
      rwa [← refillCursor_stream e, hep]
    exact hwf.bound e he w hw₁

theorem mergedRemoteMoreAvailable_wf
    {lo : Option VersionSubsequenceMutationM} {st : MergedPeekCursorM}
    (hwf : MergedWF lo st) :
    MergedWF lo (mergedRemoteMoreAvailable st).2 := by
  rw [mergedRemoteMoreAvailable]
  split
  · exact hwf
  · exact mergedRefill_wf hwf


/-- Soundness of the consumer loop: from a well-formed state every
produced mutation lies above `lo` and the whole output is strictly
increasing. -/
theorem runMergedPeekCursor_sound :
    ∀ (fuel : ℕ) (st : MergedPeekCursorM)
      (lo : Option VersionSubsequenceMutationM), MergedWF lo st →
      (∀ w ∈ runMergedPeekCursor fuel st, optVsmLT lo w) ∧
        (runMergedPeekCursor fuel st).Chain' vsmLT := by
  intro fuel
  induction fuel with
  | zero =>
    intro st lo _
    exact ⟨fun w hw => absurd hw (List.not_mem_nil w), List.chain'_nil⟩
  | succ n ih =>
    intro st lo hwf
    rw [runMergedPeekCursor]
    by_cases hrem : mergedHasRemaining st = true
    · rw [if_pos hrem]
      cases hg : mergedGet st with
      | none =>
        dsimp only
        exact ⟨fun w hw => absurd hw (List.not_mem_nil w), List.chain'_nil⟩
      | some v =>
        dsimp only
        obtain ⟨hlov, hwf'⟩ := mergedNext_wf hwf hrem hg
        obtain ⟨hbnd, hchain⟩ := ih (mergedNext st) (some v) hwf'
        constructor
        · intro w hw
          rcases List.mem_cons.mp hw with rfl | hw'
          · exact hlov
          · exact optVsmLT_trans hlov (hbnd w hw')
        · exact chain'_cons_of_forall (fun w hw => hbnd w hw) hchain
    · rw [if_neg hrem]
      dsimp only
      by_cases hb : (mergedRemoteMoreAvailable st).1 = true
      · rw [if_pos hb]
        exact ih (mergedRemoteMoreAvailable st).2 lo
          (mergedRemoteMoreAvailable_wf hwf)
      · rw [if_neg hb]
        exact ⟨fun w hw => absurd hw (List.not_mem_nil w), List.chain'_nil⟩

/-- The initial merged cursor is well-formed when the children's
streams are strictly increasing and pairwise disjoint. -/
theorem mkMergedPeekCursor_wf {children : List ServerTeamPeekCursorM}
    (hinc : ∀ c ∈ children, (cursorStream c).Chain' vsmLT)
    (hdisj : List.Pairwise
      (fun c d => ∀ v ∈ cursorStream c, v ∉ cursorStream d) children) :
    MergedWF none (mkMergedPeekCursor children) := by
  have hg : ∀ (e : ℕ × ServerTeamPeekCursorM) (x : IndexedCursorM),
      ((e.2.localBuf.head?).map
        (fun v => (⟨v.version, v.subsequence, e.1⟩ : IndexedCursorM))) =
        some x → x.cursorId = e.1 := by
    intro e x hx
    rcases Option.map_eq_some'.mp hx with ⟨w, _, hw⟩
    rw [← hw]
  refine ⟨?_, ?_, ?_, ?_, ?_, ?_, ?_⟩
  · show ((children.enum).map Prod.fst).Nodup
    rw [List.enum_map_fst]
    exact List.nodup_range _
  · show ((children.enum.filterMap _).map IndexedCursorM.cursorId).Nodup
    have h1 := filterMap_ids_sublist children.enum _ hg
    rw [List.enum_map_fst] at h1
    exact (List.nodup_range _).sublist h1
  · intro e₀ he₀
    rcases List.mem_filterMap.mp he₀ with ⟨e, he, hge⟩
    rcases Option.map_eq_some'.mp hge with ⟨w, hw, hwx⟩
    refine ⟨e.2, ?_, ?_⟩
    · have : e₀.cursorId = e.1 := by rw [← hwx]
      rw [this]
      exact he
    · rw [← hwx]
      exact hw
  · intro p hp hbuf
    have hhd : ∃ w, p.2.localBuf.head? = some w := by
      cases hh : p.2.localBuf.head? with
      | none => exact absurd (List.head?_eq_none_iff.mp hh) hbuf
      | some w => exact ⟨w, rfl⟩
    rcases hhd with ⟨w, hw⟩
    refine ⟨⟨w.version, w.subsequence, p.1⟩, ?_, rfl⟩
    refine List.mem_filterMap.mpr ⟨p, hp, ?_⟩
    rw [hw]
    rfl
  · intro p hp
    exact hinc p.2 (List.snd_mem_of_mem_enum hp)
  · intro p hp q hq hne w hw
    rcases p with ⟨i, ci⟩
    rcases q with ⟨j, cj⟩
    have hi := List.mk_mem_enum_iff_getElem?.mp hp
    have hj := List.mk_mem_enum_iff_getElem?.mp hq
    rcases List.getElem?_eq_some.mp hi with ⟨hi1, hi2⟩
    rcases List.getElem?_eq_some.mp hj with ⟨hj1, hj2⟩
    dsimp only at hne hw ⊢
    rcases Nat.lt_or_ge i j with hij | hij
    · have := List.pairwise_iff_getElem.mp hdisj i j hi1 hj1 hij
      rw [hi2, hj2] at this
      exact this w hw
    · have hji : j < i := lt_of_le_of_ne hij (fun h => hne h.symm)
      have := List.pairwise_iff_getElem.mp hdisj j i hj1 hi1 hji
      rw [hi2, hj2] at this
      intro hwj
      exact this w hwj hw
  · intro p hp w hw
    trivial

/-- C9: whenever every child cursor's mutation stream is strictly
increasing in `(version, subsequence)` and the streams of distinct
children are pairwise disjoint (no two children ever yield the same
`(version, subsequence)` pair), every output sequence of the merged
peek cursor is strictly increasing in `(version, subsequence)`; the
spec's unconditional strictness claim fails for duplicated pairs, as
`c9_counterexample_duplicate_pairs` shows. -/
theorem c9_merged_output_strictly_increasing
    (children : List ServerTeamPeekCursorM) (fuel : ℕ)
    (hinc : ∀ c ∈ children, (cursorStream c).Chain' vsmLT)
    (hdisj : List.Pairwise
      (fun c d => ∀ v ∈ cursorStream c, v ∉ cursorStream d) children) :
    (runMergedPeekCursor fuel (mkMergedPeekCursor children)).Chain' vsmLT :=
  (runMergedPeekCursor_sound fuel (mkMergedPeekCursor children) none
    (mkMergedPeekCursor_wf hinc hdisj)).2

theorem c9_merged_output_strictly_increasing_witness :
    (runMergedPeekCursor 6 (mkMergedPeekCursor
      [⟨[⟨1, 1⟩, ⟨2, 1⟩], []⟩, ⟨[⟨1, 2⟩], [[⟨3, 1⟩]]⟩])).Chain' vsmLT :=
  c9_merged_output_strictly_increasing
    [⟨[⟨1, 1⟩, ⟨2, 1⟩], []⟩, ⟨[⟨1, 2⟩], [[⟨3, 1⟩]]⟩] 6
    (by
      intro c hc
      rcases List.mem_cons.mp hc with rfl | hc
      · simp [cursorStream, List.chain'_cons, vsmLT]
      · rcases List.mem_singleton.mp hc with rfl
        simp [cursorStream, List.chain'_cons, vsmLT])
    (by
      refine List.pairwise_cons.mpr ⟨?_, List.pairwise_singleton _ _⟩
      intro d hd
      rcases List.mem_singleton.mp hd with rfl
      intro v hv
      simp [cursorStream] at hv
      rcases hv with rfl | rfl <;> decide)

end FDBModel
